import Mathlib

/-!
Verification of the ProtoGen protocol code generator model.

This file embeds, in Lean, the parts of the generator that the claims are
about: the child-parsing pass of `ProtocolStructure::parseChildren`
(protocolstructure.cpp), the enumeration value resolver
`EnumCreator::computeNumberList` (enumcreator.cpp), the packet function
emission of `ProtocolPacket` (protocolpacket.cpp) and the command line
driver (main.cpp).  Encodable accessors that live in source files outside
the analysed set (encodable.cpp, protocolfield.cpp) are modelled from the
specification and marked as such.
-/

namespace ProtoGen

/-- One child encodable of a structure: either a primitive field (a Data
tag, parsed by ProtocolField) or a nested structure.  The record keeps the
attributes that `ProtocolStructure::parseChildren` reads or mutates.
String attributes use the empty string for "attribute absent", as the C++
code uses `QString::isEmpty`. -/
structure Enc where
  name : String
  /-- True when this encodable is a nested Structure, false for a Data field. -/
  isStructure : Bool
  notEncoded : Bool
  notInMemory : Bool
  isConst : Bool
  /-- Number of bits for a bitfield Data element; 0 when the field is not a bitfield. -/
  bits : Nat
  hasDefault : Bool
  array : String
  variableArray : String
  dependsOn : String
  terminatesBitfield : Bool
  startingBitCount : Nat
  deriving Repr, DecidableEq, Inhabited

namespace Enc

/-- Encodable::isPrimitive: true for fields, false for structures. -/
def isPrimitive (c : Enc) : Bool := !c.isStructure

/-- Encodable::isArray: an encodable is an array when its array attribute is nonempty. -/
def isArray (c : Enc) : Bool := !(c.array == "")

/-- Encodable::isNotEncoded. -/
def isNotEncoded (c : Enc) : Bool := c.notEncoded

/-- Encodable::isNotInMemory. -/
def isNotInMemory (c : Enc) : Bool := c.notInMemory

/-- Encodable::isConstant. -/
def isConstant (c : Enc) : Bool := c.isConst

/-- Modelled from the spec: a bitfield is a primitive field whose bits
attribute is set (`encoded_bits` between 1 and 32); structures are never
bitfields.  The accessor itself lives in protocolfield.cpp which is not in
the analysed sources. -/
def isBitfield (c : Enc) : Bool := !c.isStructure && !(c.bits == 0)

/-- Modelled from the spec: a primitive field uses bitfields exactly when
it is itself a bitfield (protocolfield.cpp is not in the analysed sources). -/
def usesBitfields (c : Enc) : Bool := c.isBitfield

/-- Modelled from the spec: `needs_iterator` is set by children that are
themselves arrays (protocolfield.cpp is not in the analysed sources). -/
def usesIterator (c : Enc) : Bool := c.isArray

/-- Modelled from the spec: a field uses defaults when its default
attribute is set (protocolfield.cpp is not in the analysed sources). -/
def usesDefaults (c : Enc) : Bool := c.hasDefault

/-- Modelled from the spec: Encodable::isDefault mirrors the default
attribute (protocolfield.cpp is not in the analysed sources). -/
def isDefault (c : Enc) : Bool := c.hasDefault

/-- Modelled from the spec: clearDefaults removes the default value of a
field (protocolfield.cpp is not in the analysed sources). -/
def clearDefaults (c : Enc) : Enc := { c with hasDefault := false }

/-- Modelled from the spec: the ending bit count of a bitfield is its
starting bit count plus its width, as in the bitfield run example where
widths 3, 5, 8 give starting counts 0, 3, 8
(protocolfield.cpp is not in the analysed sources). -/
def getEndingBitCount (c : Enc) : Nat := c.startingBitCount + c.bits

/-- An encoded primitive field carrying a default value.  Used to state the
invariants about trailing defaults. -/
def encPrimDefaultE (c : Enc) : Bool := !c.notEncoded && !c.isStructure && c.hasDefault

end Enc

/-- The encoded children of a list: those that are not marked notEncoded.
`parseChildren` skips all bookkeeping for notEncoded children. -/
def encodedOf (l : List Enc) : List Enc := l.filter fun c => !c.isNotEncoded

/-- ProtocolStructure::getNumberOfEncodes (protocolstructure.cpp): the
number of children that appear on the wire. -/
def getNumberOfEncodes (l : List Enc) : Nat :=
  (l.filter fun c => !c.isNotEncoded).length

/-- ProtocolStructure::getNumberOfNonConstEncodes (protocolstructure.cpp). -/
def getNumberOfNonConstEncodes (l : List Enc) : Nat :=
  (l.filter fun c => !(c.isNotEncoded || c.isNotInMemory || c.isConstant)).length

/-- Diagnostic line printed to standard output: enclosing structure name,
field name, message. -/
abbrev Diag := String × String × String

def revokeMsg : String := "default value ignored, field is followed by non-default"
def vaMsg : String := "variable length array ignored, failed to find length variable"
def bfDepMsg : String := "bitfields cannot use dependsOn"
def depMsg : String := "dependsOn ignored, failed to find dependsOn variable"

/-- State of the `parseChildren` loop.  The C++ loop keeps the already
parsed children in `encodables` and a pointer `prevEncodable` to the last
encoded child; here the list is split as `front ++ lastEnc ++ tailNE`,
where `lastEnc` holds the child `prevEncodable` points to (so that the in
place mutation of `prevEncodable` is a functional update of that slot) and
`tailNE` holds the notEncoded children pushed after it. -/
structure ParseState where
  front : List Enc
  lastEnc : Option Enc
  tailNE : List Enc
  bitfields : Bool
  needsIterator : Bool
  defaults : Bool
  diags : List Diag
  deriving Repr, DecidableEq, Inhabited

/-- The `encodables` list of the C++ loop, reassembled in order. -/
def ParseState.acc (st : ParseState) : List Enc :=
  st.front ++ st.lastEnc.toList ++ st.tailNE

/-- The search loop shared by the variableArray and dependsOn validation
(protocolstructure.cpp, lines 214 to 242 and 245 to 281): a previously
parsed encodable matches when it is encoded, in memory, primitive or an
array, and has the referenced name. -/
def siblingSearch (acc : List Enc) (ref : String) : Bool :=
  acc.any fun p =>
    !p.isNotEncoded && !p.isNotInMemory && (p.isPrimitive || p.isArray) && p.name == ref

/-- The metadata bookkeeping at the top of the loop body
(protocolstructure.cpp, lines 179 to 210): bitfield, iterator and default
flags, and the revocation of earlier defaults when a non-default primitive
follows a defaulted one.  The revocation loop clears defaults of every
already parsed child and prints one diagnostic line per child. -/
def stepMeta (sname : String) (st : ParseState) (c : Enc) : ParseState :=
  if c.isPrimitive then
    let st1 := { st with
      bitfields := st.bitfields || c.usesBitfields,
      needsIterator := st.needsIterator || c.usesIterator }
    if c.usesDefaults then { st1 with defaults := true }
    else if st1.defaults then
      { st1 with
        front := st1.front.map Enc.clearDefaults,
        lastEnc := st1.lastEnc.map Enc.clearDefaults,
        tailNE := st1.tailNE.map Enc.clearDefaults,
        diags := st1.diags ++ st1.acc.map (fun e => (sname, e.name, revokeMsg)),
        defaults := false }
    else st1
  else { st with needsIterator := st.needsIterator || c.isArray }

/-- The variableArray validation (protocolstructure.cpp, lines 213 to 242):
when the referenced length variable is not found among the prior siblings
the attribute is cleared and a diagnostic is printed. -/
def stepVarArray (sname : String) (st : ParseState) (c : Enc) : ParseState × Enc :=
  if c.variableArray == "" then (st, c)
  else if siblingSearch st.acc c.variableArray then (st, c)
  else ({ st with diags := st.diags ++ [(sname, c.name, vaMsg)] },
        { c with variableArray := "" })

/-- The dependsOn validation (protocolstructure.cpp, lines 244 to 281):
bitfields may not use dependsOn; otherwise the referenced variable must be
found among the prior siblings, else the attribute is cleared. -/
def stepDependsOn (sname : String) (st : ParseState) (c : Enc) : ParseState × Enc :=
  if c.dependsOn == "" then (st, c)
  else if c.isBitfield then
    ({ st with diags := st.diags ++ [(sname, c.name, bfDepMsg)] }, { c with dependsOn := "" })
  else if siblingSearch st.acc c.dependsOn then (st, c)
  else ({ st with diags := st.diags ++ [(sname, c.name, depMsg)] }, { c with dependsOn := "" })

/-- The bitfield run bookkeeping and the push of the child
(protocolstructure.cpp, lines 283 to 310): a bitfield is assumed to
terminate its group; when the previous encoded child is also a bitfield,
that previous child is unmarked and the current child receives the ending
bit count of the previous one as its starting bit count.  Finally the
current child becomes the new previous encodable.
Lines 283 to 285: a bitfield is assumed to terminate the bitfield
group until we learn otherwise. -/
def markTerm (c : Enc) : Enc :=
  if c.isBitfield then { c with terminatesBitfield := true } else c

/-- The branch on `prevEncodable` (lines 288 to 302 and the push at line
310), with the previous encoded child passed explicitly. -/
def stepPushAux (st : ParseState) (c : Enc) : Option Enc → ParseState
  | some p =>
    if p.isBitfield && c.isBitfield then
      { st with
        front := st.front ++ [{ p with terminatesBitfield := false }] ++ st.tailNE,
        lastEnc := some { c with startingBitCount := p.getEndingBitCount },
        tailNE := [] }
    else
      { st with front := st.front ++ [p] ++ st.tailNE, lastEnc := some c, tailNE := [] }
  | none => { st with front := st.front ++ st.tailNE, lastEnc := some c, tailNE := [] }

/-- Lines 283 to 310 combined: mark the terminator assumption, then
handle the previous-encodable branch and push the child. -/
def stepPush (st : ParseState) (c0 : Enc) : ParseState :=
  stepPushAux st (markTerm c0) st.lastEnc

/-- One iteration of the `parseChildren` loop body for a child generated by
the encodable factory.  A notEncoded child is pushed without any of the
metadata, reference or bitfield bookkeeping. -/
def step (sname : String) (st : ParseState) (c : Enc) : ParseState :=
  if c.isNotEncoded then { st with tailNE := st.tailNE ++ [c] }
  else
    let st1 := stepMeta sname st c
    let r2 := stepVarArray sname st1 c
    let r3 := stepDependsOn sname r2.1 r2.2
    stepPush r3.1 r3.2

/-- ProtocolStructure::parseChildren (protocolstructure.cpp, lines 162 to
316), folded over the children in document order. -/
def parseChildren (sname : String) (cs : List Enc) : ParseState :=
  cs.foldl (step sname) ⟨[], none, [], false, false, false, []⟩

/-! ## Enumeration value resolver (enumcreator.cpp) -/

/-- QString::trimmed, modelled on the character list: leading and trailing
whitespace removed. -/
def qtrim (s : String) : String :=
  String.mk (((s.toList.dropWhile Char.isWhitespace).reverse.dropWhile
    Char.isWhitespace).reverse)

/-- QString::startsWith, on the character list. -/
def startsWithL (s pat : String) : Bool :=
  List.isPrefixOf pat.toList s.toList

/-- QString::endsWith, on the character list. -/
def endsWithL (s pat : String) : Bool :=
  List.isPrefixOf pat.toList.reverse s.toList.reverse

/-- Value of one character as a digit in the given base. -/
def digitValue (b : Nat) (ch : Char) : Option Nat :=
  let n :=
    if 48 ≤ ch.toNat ∧ ch.toNat ≤ 57 then some (ch.toNat - 48)
    else if 97 ≤ ch.toNat ∧ ch.toNat ≤ 102 then some (ch.toNat - 87)
    else if 65 ≤ ch.toNat ∧ ch.toNat ≤ 70 then some (ch.toNat - 55)
    else none
  match n with
  | some v => if v < b then some v else none
  | none => none

def parseDigitsAux (b : Nat) : Nat → List Char → Option Nat
  | acc, [] => some acc
  | acc, ch :: r =>
    match digitValue b ch with
    | some v => parseDigitsAux b (acc * b + v) r
    | none => none

/-- Digits-only parse, requiring a nonempty digit string. -/
def parseDigits (b : Nat) (l : List Char) : Option Nat :=
  match l with
  | [] => none
  | _ => parseDigitsAux b 0 l

/-- Modelled from the Qt documentation of QString::toUInt(ok, base): the
whole string must be a number in the given base (an optional 0x prefix for
base 16 and 0b prefix for base 2 is accepted) and must fit an unsigned
32 bit integer, otherwise ok is false. -/
def qstringToUInt (s : String) (b : Nat) : Option Nat :=
  let l := s.toList
  let l :=
    if b == 16 && (startsWithL s "0x" || startsWithL s "0X") then l.drop 2
    else if b == 2 && (startsWithL s "0b" || startsWithL s "0B") then l.drop 2
    else l
  match parseDigits b l with
  | some n => if n < 4294967296 then some n else none
  | none => none

/-- Conversion of the C++ assignment of a 32 bit unsigned value to a
signed int: values of 2^31 and above wrap around (two's complement, as on
the compilers the generator targets). -/
def toInt32 (n : Nat) : Int :=
  if n < 2147483648 then (n : Int) else (n : Int) - 4294967296

/-- The numeric parse dispatch of EnumCreator::computeNumberList
(enumcreator.cpp, lines 166 to 173): 0x selects base 16, 0b selects base
2, anything else is parsed as decimal. -/
def enumParse (s : String) : Option Nat :=
  if startsWithL s "0x" then qstringToUInt s 16
  else if startsWithL s "0b" then qstringToUInt s 2
  else qstringToUInt s 10

/-- Loop state of EnumCreator::computeNumberList: running maximum, running
value, symbolic base string and the number list built so far. -/
structure EnumSt where
  maxValue : Int
  value : Int
  baseString : String
  numberList : List String
  deriving Repr, DecidableEq, Inhabited

/-- One iteration of the EnumCreator::computeNumberList loop
(enumcreator.cpp, lines 143 to 197). -/
def enumStep (st : EnumSt) (s0 : String) : EnumSt :=
  let s := qtrim s0
  let t : Int × String × String :=
    if s == "" then
      let v := st.value + 1
      (v, st.baseString,
        if st.baseString == "" then toString v
        else st.baseString ++ " + " ++ toString v)
    else
      match enumParse s with
      | some n => (toInt32 n, "", toString (toInt32 n))
      | none => (0, s, s)
  let value := t.1
  let baseString := t.2.1
  let entry := t.2.2
  { maxValue := if value > st.maxValue then value else st.maxValue
    value := value
    baseString := baseString
    numberList := st.numberList ++ [entry] }

/-- Result of EnumCreator::computeNumberList: the number list used for the
markdown output, the final running maximum, and minbitwidth. -/
structure EnumResult where
  numberList : List String
  maxValue : Int
  minbitwidth : Nat
  deriving Repr, DecidableEq, Inhabited

/-- EnumCreator::computeNumberList (enumcreator.cpp, lines 137 to 208).
maxValue starts at 1 and value at -1; after the loop, minbitwidth is
ceil(log2(maxValue + 1)) when maxValue is positive and 8 otherwise. -/
def computeNumberList (valueList : List String) : EnumResult :=
  let st := valueList.foldl enumStep ⟨1, -1, "", []⟩
  { numberList := st.numberList
    maxValue := st.maxValue
    minbitwidth := if 0 < st.maxValue then Nat.clog 2 (st.maxValue.toNat + 1) else 8 }

/-! ## Packet function emission (protocolpacket.cpp) -/

/-- The packet data consumed by ProtocolPacket emission: the members of
ProtocolStructure filled in by parse plus the packet level data.  The two
encoded length strings are produced by the EncodedLength module
(encodedlength.cpp, outside the analysed sources) and are treated as
opaque inputs here. -/
structure Packet where
  protoName : String
  prefixStr : String
  name : String
  encodables : List Enc
  bitfields : Bool
  needsIterator : Bool
  defaults : Bool
  minEncodedLength : String
  nonDefaultEncodedLength : String
  deriving Repr, DecidableEq, Inhabited

/-- A packet model assembled from a parseChildren run, as
ProtocolPacket::parse does via ProtocolStructure::parse. -/
def packetOfParse (proto pfx nm sname : String) (cs : List Enc)
    (minL nonDefL : String) : Packet :=
  let st := parseChildren sname cs
  { protoName := proto, prefixStr := pfx, name := nm, encodables := st.acc,
    bitfields := st.bitfields, needsIterator := st.needsIterator,
    defaults := st.defaults, minEncodedLength := minL,
    nonDefaultEncodedLength := nonDefL }

/-- Abstract statements written into a generated packet function body.
Each constructor stands for a fixed block of C text written by
protocolpacket.cpp:
* `idCheck proto pname` is the pair of lines
  if(get&lt;proto&gt;PacketID(pkt) != get&lt;pname&gt;PacketID()) return 0;
* `sizeCheck proto pname` is
  numBytes = get&lt;proto&gt;PacketSize(pkt); if(numBytes &lt; get&lt;pname&gt;MinDataLength()) return 0;
* `setDefault f` is the default initialisation of field f before decoding;
* `decodeField f` and `encodeField f` are the per-field blocks produced by
  getDecodeString and getEncodeString;
* `shortCheck` is if(numBytes &lt; byteindex) return 0;
* `finishPacket zero` is the finish&lt;proto&gt;Packet call, with byte count 0
  when zero is true and byteindex otherwise;
* `return1` is the final return 1.  -/
inductive PStmt where
  | idCheck (proto pname : String)
  | sizeCheck (proto pname : String)
  | setDefault (field : String)
  | decodeField (field : String)
  | encodeField (field : String)
  | shortCheck
  | finishPacket (zeroLength : Bool)
  | return1
  deriving Repr, DecidableEq, Inhabited

/-- Modelled from the spec: getSetToDefaultsString emits the default value
assignment for a defaulted field and nothing for other encodables
(protocolfield.cpp is not in the analysed sources; the spec says default
values are emitted as assignments executed before decoding begins). -/
def setToDefaultsStmt (c : Enc) : Option PStmt :=
  if c.isDefault then some (PStmt.setDefault c.name) else none

/-- The first decode loop of the packet decode functions
(protocolpacket.cpp, lines 408 to 418 and 565 to 575): fields are decoded
in order until the first default field, and the break index is returned. -/
def decodeNonDefaultLoop : List Enc → List PStmt × Nat
  | [] => ([], 0)
  | c :: rest =>
    if c.isDefault then ([], 0)
    else
      let r := decodeNonDefaultLoop rest
      (PStmt.decodeField c.name :: r.1, r.2 + 1)

/-- Body of the packet decode function generated by
ProtocolPacket::createStructurePacketFunctions (protocolpacket.cpp, lines
297 to 474): identifier check, size check, default initialisation when the
packet has defaults, the non-default decode loop, the conditional short
packet check, the remaining decodes, and return 1.  With no encoded
children only the identifier check is generated. -/
def structurePacketDecodeStmts (p : Packet) : List PStmt :=
  if 0 < getNumberOfEncodes p.encodables then
    let r := decodeNonDefaultLoop p.encodables
    [PStmt.idCheck p.protoName (p.prefixStr ++ p.name),
     PStmt.sizeCheck p.protoName (p.prefixStr ++ p.name)]
    ++ (if p.defaults then p.encodables.filterMap setToDefaultsStmt else [])
    ++ r.1
    ++ (if !(p.minEncodedLength == p.nonDefaultEncodedLength) && decide (0 < r.2)
        then [PStmt.shortCheck] else [])
    ++ (p.encodables.drop r.2).map (fun c => PStmt.decodeField c.name)
    ++ [PStmt.return1]
  else
    [PStmt.idCheck p.protoName (p.prefixStr ++ p.name), PStmt.return1]

/-- Body of the parameter interface decode function generated by
ProtocolPacket::createPacketFunctions (protocolpacket.cpp, lines 480 to
631); the statement sequence duplicates the structure interface decode. -/
def packetDecodeStmts (p : Packet) : List PStmt :=
  if 0 < getNumberOfEncodes p.encodables then
    let r := decodeNonDefaultLoop p.encodables
    [PStmt.idCheck p.protoName (p.prefixStr ++ p.name),
     PStmt.sizeCheck p.protoName (p.prefixStr ++ p.name)]
    ++ (if p.defaults then p.encodables.filterMap setToDefaultsStmt else [])
    ++ r.1
    ++ (if !(p.minEncodedLength == p.nonDefaultEncodedLength) && decide (0 < r.2)
        then [PStmt.shortCheck] else [])
    ++ (p.encodables.drop r.2).map (fun c => PStmt.decodeField c.name)
    ++ [PStmt.return1]
  else
    [PStmt.idCheck p.protoName (p.prefixStr ++ p.name), PStmt.return1]

/-- Body of the structure interface encode function (protocolpacket.cpp,
lines 297 to 355 and 443 to 455). -/
def structurePacketEncodeStmts (p : Packet) : List PStmt :=
  if 0 < getNumberOfEncodes p.encodables then
    p.encodables.map (fun c => PStmt.encodeField c.name) ++ [PStmt.finishPacket false]
  else
    [PStmt.finishPacket true]

/-- Body of the parameter interface encode function (protocolpacket.cpp,
lines 480 to 526 and 599 to 612). -/
def packetEncodeStmts (p : Packet) : List PStmt :=
  if 0 < getNumberOfEncodes p.encodables then
    p.encodables.map (fun c => PStmt.encodeField c.name) ++ [PStmt.finishPacket false]
  else
    [PStmt.finishPacket true]

/-- Which generated function a body belongs to. -/
inductive FnKind where
  | structEncode
  | structDecode
  | paramEncode
  | paramDecode
  deriving Repr, DecidableEq, Inhabited

structure GenFn where
  kind : FnKind
  body : List PStmt
  deriving Repr, DecidableEq, Inhabited

/-- Interface selection of ProtocolPacket::parse (protocolpacket.cpp,
lines 138 to 157): the attribute flags are the results of the contains
"true" tests; with no encodables the parameter interface is forced, and
when the user gave no guidance the parameter interface is chosen for at
most one encodable and the structure interface otherwise. -/
def interfaceFlags (sAttr pAttr : Bool) (numEncodables : Nat) : Bool × Bool :=
  if numEncodables ≤ 0 then (false, true)
  else if !sAttr && !pAttr then
    (if numEncodables ≤ 1 then (sAttr, true) else (true, pAttr))
  else (sAttr, pAttr)

/-- ProtocolPacket::createStructurePacketFunctions emits the structure
interface encode and decode pair. -/
def createStructurePacketFns (p : Packet) : List GenFn :=
  [⟨FnKind.structEncode, structurePacketEncodeStmts p⟩,
   ⟨FnKind.structDecode, structurePacketDecodeStmts p⟩]

/-- ProtocolPacket::createPacketFunctions emits the parameter interface
encode and decode pair. -/
def createPacketFns (p : Packet) : List GenFn :=
  [⟨FnKind.paramEncode, packetEncodeStmts p⟩,
   ⟨FnKind.paramDecode, packetDecodeStmts p⟩]

/-- The packet function emission dispatch of ProtocolPacket::parse
(protocolpacket.cpp, lines 188 to 203): the structure pair is emitted when
the structure interface is selected and there are encodables, the
parameter pair whenever the parameter interface is selected; both go into
the same source module. -/
def protocolPacketParseFns (sAttr pAttr : Bool) (p : Packet) : List GenFn :=
  let fl := interfaceFlags sAttr pAttr p.encodables.length
  (if fl.1 && decide (0 < p.encodables.length) then createStructurePacketFns p else [])
  ++ (if fl.2 then createPacketFns p else [])

/-! ## Command line driver (main.cpp) -/

/-- Environment of one run of main: the argument vector including the
program name, and the outcomes of the external steps (file open, XML
validation, parser run). -/
structure MainInput where
  argv : List String
  fileOpens : Bool
  xmlWellFormed : Bool
  parseReturns : Bool
  deriving Repr, DecidableEq, Inhabited

structure MainOutcome where
  exitCode : Nat
  /-- True exactly when ProtocolParser::parse was invoked; every file
  generated by the program is written inside that call, so no output at
  all is produced when this is false. -/
  parserRan : Bool
  messages : List String
  deriving Repr, DecidableEq, Inhabited

/-- Case insensitive substring test, as QString::contains with
Qt::CaseInsensitive. -/
def containsCI (hay pat : String) : Bool :=
  ((hay.toList.map Char.toLower).tails).any
    (fun t => (pat.toList.map Char.toLower).isPrefixOf t)

structure ArgScan where
  nodoxygen : Bool
  nomarkdown : Bool
  nohelperfiles : Bool
  filename : String
  path : String
  deriving Repr, DecidableEq, Inhabited

/-- The argument loop of main (main.cpp, lines 30 to 49): the filename
starts as the first user argument; every argument is checked for the
option substrings, an .xml suffix replaces the filename, and any other
argument different from the current filename becomes the output path. -/
def mainScan (argv : List String) : ArgScan :=
  (argv.drop 1).foldl
    (fun sc arg =>
      if containsCI arg "-no-doxygen" then { sc with nodoxygen := true }
      else if containsCI arg "-no-markdown" then { sc with nomarkdown := true }
      else if containsCI arg "-no-helper-files" then { sc with nohelperfiles := true }
      else if endsWithL arg ".xml" then { sc with filename := arg }
      else if !(arg == sc.filename) then { sc with path := arg }
      else sc)
    { nodoxygen := false, nomarkdown := false, nohelperfiles := false,
      filename := (argv.drop 1).headD "", path := "" }

/-- main (main.cpp, lines 10 to 103).  Return starts at 1; a missing
argument, an empty filename, an unopenable file or invalid XML set it to 0
and never reach the parser; when the parser runs, Return is 1 whether or
not ProtocolParser::parse returns true, because it was initialised to 1
and is only ever reassigned 1 on that path. -/
def mainRun (m : MainInput) : MainOutcome :=
  if m.argv.length ≤ 1 then
    { exitCode := 0, parserRan := false,
      messages := ["Protocol generator usage:",
        "ProtoGen input.xml [outputpath] [-no-doxygen] [-no-markdown] [-no-helper-files]"] }
  else
    let sc := mainScan m.argv
    if !(sc.filename == "") then
      if m.fileOpens then
        if m.xmlWellFormed then
          { exitCode := 1, parserRan := true, messages := [] }
        else
          { exitCode := 0, parserRan := false,
            messages := ["failed to validate xml from file: " ++ sc.filename] }
      else
        { exitCode := 0, parserRan := false,
          messages := ["failed to open protocol file: " ++ sc.filename] }
    else
      { exitCode := 0, parserRan := false, messages := ["must provide a protocol file."] }

/-! ## Views used by the parseChildren invariants

The loop mutates already parsed children in place (revoking defaults,
unmarking bitfield terminators).  The invariants below are stated through
two projections so that mutations that do not touch the projected fields
rewrite away definitionally. -/

/-- The fields of a child relevant to the trailing-defaults invariant. -/
structure DView where
  dname : String
  ne : Bool
  struc : Bool
  dflt : Bool
  deriving Repr, DecidableEq, Inhabited

def projD (c : Enc) : DView := ⟨c.name, c.notEncoded, c.isStructure, c.hasDefault⟩

/-- View of an encoded primitive field with a default value. -/
def epdD (v : DView) : Bool := !v.ne && !v.struc && v.dflt

/-- View of an encoded primitive field. -/
def encPrimD (v : DView) : Bool := !v.ne && !v.struc

/-- A child that may legally follow a defaulted field: either not an
encoded primitive, or itself defaulted. -/
def goodAfter (v : DView) : Bool := !(encPrimD v) || v.dflt

/-- Defaulted fields form a contiguous suffix: every encoded primitive
after an encoded defaulted primitive is itself defaulted. -/
def suffixOKbP : List DView → Bool
  | [] => true
  | v :: r => (!(epdD v) || r.all goodAfter) && suffixOKbP r

/-- Trailing-defaults property over the children of a structure. -/
def suffixOKb (l : List Enc) : Bool := suffixOKbP (l.map projD)

/-- The fields of a child relevant to the bitfield-run invariant. -/
structure BView where
  ne : Bool
  bf : Bool
  bterm : Bool
  bstart : Nat
  bbits : Nat
  deriving Repr, DecidableEq, Inhabited

def projB (c : Enc) : BView := ⟨c.notEncoded, c.isBitfield, c.terminatesBitfield, c.startingBitCount, c.bits⟩

/-- Relation between two adjacent encoded children: a bitfield followed by
another bitfield is not a run terminator and chains its ending bit count
into the starting bit count of the successor; a bitfield followed by a
non-bitfield is a run terminator. -/
def pairBOK (a b : BView) : Bool :=
  if a.bf then
    (if b.bf then (!a.bterm && (b.bstart == a.bstart + a.bbits)) else a.bterm)
  else true

/-- A bitfield that ends the child list is a run terminator. -/
def lastOKB (a : BView) : Bool := !a.bf || a.bterm

def chainBP : List BView → Bool
  | [] => true
  | [_] => true
  | a :: b :: r => pairBOK a b && chainBP (b :: r)

def lastBP (l : List BView) : Bool :=
  match l.getLast? with
  | some a => lastOKB a
  | none => true

/-- The bitfield-run property over the encoded children of a structure:
adjacent encoded bitfields chain their bit counts and only the last member
of each maximal run of encoded bitfields is marked as terminator. -/
def runsOKb (l : List Enc) : Bool :=
  chainBP ((encodedOf l).map projB) && lastBP ((encodedOf l).map projB)

theorem projD_clearDefaults (c : Enc) :
    projD (Enc.clearDefaults c) = { projD c with dflt := false } := rfl

theorem projB_clearDefaults (c : Enc) : projB (Enc.clearDefaults c) = projB c := rfl

theorem encPrimDefaultE_eq (c : Enc) : Enc.encPrimDefaultE c = epdD (projD c) := rfl

/-- The relation underlying `suffixOKbP`, in propositional form. -/
def DSuffixR (a b : DView) : Prop := epdD a = true → goodAfter b = true

theorem suffixOKbP_iff (l : List DView) :
    suffixOKbP l = true ↔ List.Pairwise DSuffixR l := by
  induction l with
  | nil => simp [suffixOKbP]
  | cons v r ih =>
    simp only [suffixOKbP, Bool.and_eq_true, Bool.or_eq_true, Bool.not_eq_true',
      List.pairwise_cons, ih, List.all_eq_true]
    constructor
    · rintro ⟨h1, h2⟩
      refine ⟨fun b hb hv => ?_, h2⟩
      rcases h1 with h1 | h1
      · rw [hv] at h1; cases h1
      · exact h1 b hb
    · rintro ⟨h1, h2⟩
      refine ⟨?_, h2⟩
      by_cases hv : epdD v = true
      · exact Or.inr fun b hb => h1 b hb hv
      · refine Or.inl ?_
        cases h : epdD v
        · rfl
        · exact absurd h hv

theorem pairwise_dsuffix_of_all (l : List DView) (h : ∀ x ∈ l, epdD x = false) :
    List.Pairwise DSuffixR l := by
  induction l with
  | nil => exact List.Pairwise.nil
  | cons v r ih =>
    refine List.Pairwise.cons (fun b _ hv => ?_)
      (ih fun x hx => h x (List.mem_cons_of_mem v hx))
    rw [h v (List.mem_cons_self v r)] at hv
    cases hv

/-- The relation underlying `chainBP`, in propositional form. -/
def BPairR (a b : BView) : Prop := pairBOK a b = true

theorem chainBP_iff (l : List BView) :
    chainBP l = true ↔ List.Chain' BPairR l := by
  induction l with
  | nil => simp [chainBP]
  | cons a r ih =>
    cases r with
    | nil => simp [chainBP, BPairR]
    | cons b r2 =>
      rw [List.chain'_cons]
      simp only [chainBP, Bool.and_eq_true, ih]
      exact Iff.rfl

theorem chain_bpair_concat (l : List BView) (a : BView)
    (hc : List.Chain' BPairR l)
    (hlast : ∀ x, l.getLast? = some x → BPairR x a) :
    List.Chain' BPairR (l ++ [a]) := by
  rw [List.chain'_append]
  refine ⟨hc, List.chain'_singleton a, fun x hx y hy => ?_⟩
  simp only [List.head?_cons, Option.mem_def, Option.some.injEq] at hy
  subst hy
  exact hlast x hx

theorem lastBP_concat (l : List BView) (a : BView) :
    lastBP (l ++ [a]) = lastOKB a := by
  simp [lastBP, List.getLast?_concat]

theorem pairBOK_snd_congr (x : BView) (b b' : BView)
    (hbf : b'.bf = b.bf) (hst : b'.bstart = b.bstart) :
    pairBOK x b' = pairBOK x b := by
  simp [pairBOK, hbf, hst]

theorem bool_false_of_not_true {b : Bool} (h : ¬ b = true) : b = false := by
  cases b
  · rfl
  · exact absurd rfl h

/-! ## List helper lemmas -/

theorem forall₂_imp_mem {α β : Type} {R S : α → β → Prop} :
    ∀ {l₁ : List α} {l₂ : List β}, List.Forall₂ R l₁ l₂ →
      (∀ a b, b ∈ l₂ → R a b → S a b) → List.Forall₂ S l₁ l₂ := by
  intro l₁ l₂ h
  induction h with
  | nil => intro _; exact List.Forall₂.nil
  | @cons a b la lb hab _ ih =>
    intro himp
    exact List.Forall₂.cons (himp a b (List.mem_cons_self b lb) hab)
      (ih fun a b hb hr => himp a b (List.mem_cons_of_mem _ hb) hr)

theorem forall₂_concat {α β : Type} {R : α → β → Prop} :
    ∀ {l₁ : List α} {l₂ : List β}, List.Forall₂ R l₁ l₂ → ∀ {a b}, R a b →
      List.Forall₂ R (l₁ ++ [a]) (l₂ ++ [b]) := by
  intro l₁ l₂ h
  induction h with
  | nil => intro a b hab; exact List.Forall₂.cons hab List.Forall₂.nil
  | cons hab _ ih => intro a b h2; exact List.Forall₂.cons hab (ih h2)

theorem encodedOf_append (l₁ l₂ : List Enc) :
    encodedOf (l₁ ++ l₂) = encodedOf l₁ ++ encodedOf l₂ := by
  simp [encodedOf, List.filter_append]

theorem encodedOf_map_clear (l : List Enc) :
    encodedOf (l.map Enc.clearDefaults) = (encodedOf l).map Enc.clearDefaults := by
  induction l with
  | nil => rfl
  | cons c r ih =>
    show encodedOf (Enc.clearDefaults c :: r.map Enc.clearDefaults) = _
    by_cases hc : c.isNotEncoded = true
    · have hc2 : (Enc.clearDefaults c).isNotEncoded = true := hc
      simp [encodedOf, List.filter_cons, hc, hc2] at *
      exact ih
    · have hc1 : c.isNotEncoded = false := by
        cases h : c.isNotEncoded
        · rfl
        · exact absurd h hc
      have hc2 : (Enc.clearDefaults c).isNotEncoded = false := hc1
      simp [encodedOf, List.filter_cons, hc1, hc2] at *
      exact ih

theorem encodedOf_nil_of_all_ne (l : List Enc) (h : ∀ x ∈ l, x.isNotEncoded = true) :
    encodedOf l = [] := by
  simp only [encodedOf, List.filter_eq_nil_iff]
  intro a ha
  simp [h a ha]

theorem mapB_clear (l : List Enc) :
    (l.map Enc.clearDefaults).map projB = l.map projB := by
  induction l with
  | nil => rfl
  | cons c r ih => simp only [List.map_cons, ih, projB_clearDefaults]

theorem mapD_clear (l : List Enc) :
    (l.map Enc.clearDefaults).map projD =
      (l.map projD).map (fun v => { v with dflt := false }) := by
  induction l with
  | nil => rfl
  | cons c r ih => simp only [List.map_cons, ih, projD_clearDefaults]

theorem acc_map (st : ParseState) (f : Enc → Enc) :
    st.acc.map f = st.front.map f ++ (st.lastEnc.map f).toList ++ st.tailNE.map f := by
  rw [ParseState.acc]
  cases h : st.lastEnc <;> simp [h]

/-! ## The parseChildren loop invariant -/

/-- The relation recorded between an input child and the corresponding
child in the final list: names agree, and when the default value of the
child was revoked during parsing, a diagnostic line naming the child was
printed. -/
def RevRelV (sname : String) (ds : List Diag) (a : Enc) (v : DView) : Prop :=
  a.name = v.dname ∧
    (a.hasDefault = true → v.dflt = false → (sname, a.name, revokeMsg) ∈ ds)

/-- Everything the parseChildren loop maintains about its state after
having consumed the children `pre`. -/
def Inv (sname : String) (pre : List Enc) (st : ParseState) : Prop :=
  (∀ x ∈ st.tailNE, x.isNotEncoded = true)
  ∧ (∀ p, st.lastEnc = some p → p.isNotEncoded = false)
  ∧ (st.lastEnc = none → st.front = [])
  ∧ List.Chain' BPairR ((encodedOf st.acc).map projB)
  ∧ lastBP ((encodedOf st.acc).map projB) = true
  ∧ (st.defaults = false → ∀ x ∈ st.acc, Enc.encPrimDefaultE x = false)
  ∧ List.Pairwise DSuffixR (st.acc.map projD)
  ∧ List.Forall₂ (RevRelV sname st.diags) pre (st.acc.map projD)

theorem inv_diags_append (sname : String) (pre : List Enc) (st : ParseState)
    (ds : List Diag) (h : Inv sname pre st) :
    Inv sname pre { st with diags := st.diags ++ ds } := by
  obtain ⟨h1, h2, h3, h4, h5, h6, h7, h8⟩ := h
  refine ⟨h1, h2, h3, h4, h5, h6, h7, ?_⟩
  refine List.Forall₂.imp ?_ h8
  intro a b hab
  exact ⟨hab.1, fun x y => List.mem_append_left _ (hab.2 x y)⟩

theorem epdE_clear (y : Enc) : Enc.encPrimDefaultE (Enc.clearDefaults y) = false := by
  simp [Enc.encPrimDefaultE, Enc.clearDefaults]

theorem stepMeta_inv (sname : String) (pre : List Enc) (st : ParseState) (c : Enc)
    (h : Inv sname pre st) : Inv sname pre (stepMeta sname st c) := by
  obtain ⟨h1, h2, h3, h4, h5, h6, h7, h8⟩ := h
  unfold stepMeta
  by_cases hp : c.isPrimitive = true
  · rw [if_pos hp]
    dsimp only
    by_cases hd : c.usesDefaults = true
    · rw [if_pos hd]
      exact ⟨h1, h2, h3, h4, h5, by intro hh; simp at hh, h7, h8⟩
    · rw [if_neg hd]
      by_cases hdf : st.defaults = true
      · rw [if_pos hdf]
        have hacc : ∀ (bf ni df : Bool) (dg : List Diag),
            (ParseState.mk (st.front.map Enc.clearDefaults)
              (st.lastEnc.map Enc.clearDefaults)
              (st.tailNE.map Enc.clearDefaults) bf ni df dg).acc
            = st.acc.map Enc.clearDefaults := by
          intro bf ni df dg
          rw [acc_map st Enc.clearDefaults]
          rfl
        refine ⟨?_, ?_, ?_, ?_, ?_, ?_, ?_, ?_⟩
        · intro x hx
          obtain ⟨y, hy, rfl⟩ := List.mem_map.mp hx
          exact h1 y hy
        · intro p hp2
          obtain ⟨q, hq, rfl⟩ := Option.map_eq_some'.mp hp2
          exact h2 q hq
        · intro hn
          rw [Option.map_eq_none'] at hn
          simp [h3 hn]
        · show List.Chain' BPairR ((encodedOf ((ParseState.mk _ _ _ _ _ _ _).acc)).map projB)
          rw [hacc, encodedOf_map_clear, mapB_clear]
          exact h4
        · show lastBP ((encodedOf ((ParseState.mk _ _ _ _ _ _ _).acc)).map projB) = true
          rw [hacc, encodedOf_map_clear, mapB_clear]
          exact h5
        · intro _ x hx
          rw [hacc] at hx
          obtain ⟨y, _, rfl⟩ := List.mem_map.mp hx
          exact epdE_clear y
        · show List.Pairwise DSuffixR (((ParseState.mk _ _ _ _ _ _ _).acc).map projD)
          rw [hacc, mapD_clear]
          refine pairwise_dsuffix_of_all _ ?_
          intro v hv
          obtain ⟨w, _, rfl⟩ := List.mem_map.mp hv
          simp [epdD]
        · show List.Forall₂ _ pre (((ParseState.mk _ _ _ _ _ _ _).acc).map projD)
          rw [hacc, mapD_clear, List.forall₂_map_right_iff, List.forall₂_map_right_iff]
          have h8' := (List.forall₂_map_right_iff).mp h8
          refine forall₂_imp_mem h8' ?_
          intro a b hb hab
          refine ⟨hab.1, fun hda _ => ?_⟩
          by_cases hbd : (projD b).dflt = false
          · exact List.mem_append_left _ (hab.2 hda hbd)
          · refine List.mem_append_right _ ?_
            rw [hab.1]
            exact List.mem_map.mpr ⟨b, hb, rfl⟩
      · rw [if_neg hdf]
        have hdf' : st.defaults = false := by
          cases hq : st.defaults
          · rfl
          · exact absurd hq hdf
        exact ⟨h1, h2, h3, h4, h5, fun _ => h6 hdf', h7, h8⟩
  · rw [if_neg hp]
    exact ⟨h1, h2, h3, h4, h5, h6, h7, h8⟩

theorem stepVarArray_spec (sname : String) (st : ParseState) (c : Enc) :
    ∃ ds va, stepVarArray sname st c =
      ({ st with diags := st.diags ++ ds }, { c with variableArray := va }) := by
  unfold stepVarArray
  by_cases hv : (c.variableArray == "") = true
  · rw [if_pos hv]
    exact ⟨[], c.variableArray, by simp⟩
  · rw [if_neg hv]
    by_cases hs : siblingSearch st.acc c.variableArray = true
    · rw [if_pos hs]
      exact ⟨[], c.variableArray, by simp⟩
    · rw [if_neg hs]
      exact ⟨[(sname, c.name, vaMsg)], "", rfl⟩

theorem stepDependsOn_spec (sname : String) (st : ParseState) (c : Enc) :
    ∃ ds dep, stepDependsOn sname st c =
      ({ st with diags := st.diags ++ ds }, { c with dependsOn := dep }) := by
  unfold stepDependsOn
  by_cases hv : (c.dependsOn == "") = true
  · rw [if_pos hv]
    exact ⟨[], c.dependsOn, by simp⟩
  · rw [if_neg hv]
    by_cases hb : c.isBitfield = true
    · rw [if_pos hb]
      exact ⟨[(sname, c.name, bfDepMsg)], "", rfl⟩
    · rw [if_neg hb]
      by_cases hs : siblingSearch st.acc c.dependsOn = true
      · rw [if_pos hs]
        exact ⟨[], c.dependsOn, by simp⟩
      · rw [if_neg hs]
        exact ⟨[(sname, c.name, depMsg)], "", rfl⟩

theorem projD_refs (c : Enc) (va dep : String) :
    projD { c with variableArray := va, dependsOn := dep } = projD c := rfl

/-- Conclude the invariant for a state that extends the accumulated list
with one new encoded child whose defaults view is that of `c`; the
bitfield chain facts are supplied per branch. -/
theorem inv_of_parts (sname : String) (pre : List Enc) (st : ParseState)
    (S : ParseState) (c0 c cNew : Enc)
    (h : Inv sname pre st)
    (hS_tail : S.tailNE = [])
    (hS_last : S.lastEnc = some cNew)
    (hS_def : S.defaults = st.defaults)
    (hS_diags : S.diags = st.diags)
    (hNew_ne : cNew.isNotEncoded = false)
    (hD : S.acc.map projD = st.acc.map projD ++ [projD c])
    (hChain : List.Chain' BPairR ((encodedOf S.acc).map projB))
    (hLast : lastBP ((encodedOf S.acc).map projB) = true)
    (hprojD : projD c = projD c0)
    (hdp : st.defaults = false → Enc.encPrimDefaultE c = false)
    (hsfx : encPrimD (projD c) = true → (projD c).dflt = false →
      ∀ x ∈ st.acc, Enc.encPrimDefaultE x = false) :
    Inv sname (pre ++ [c0]) S := by
  obtain ⟨h1, h2, h3, h4, h5, h6, h7, h8⟩ := h
  have hrel : RevRelV sname st.diags c0 (projD c) := by
    refine ⟨?_, ?_⟩
    · rw [hprojD]
      rfl
    · intro hd0 hdc
      rw [hprojD] at hdc
      have hh : (projD c0).dflt = c0.hasDefault := rfl
      rw [hh, hd0] at hdc
      cases hdc
  have hcross : ∀ a ∈ st.acc.map projD, DSuffixR a (projD c) := by
    intro a ha he
    by_cases hcp : encPrimD (projD c) = true
    · by_cases hcd : (projD c).dflt = true
      · simp [goodAfter, hcd]
      · have hcd2 : (projD c).dflt = false := by
          cases hq : (projD c).dflt
          · rfl
          · exact absurd hq hcd
        obtain ⟨y, hy, rfl⟩ := List.mem_map.mp ha
        have hy2 := hsfx hcp hcd2 y hy
        rw [encPrimDefaultE_eq] at hy2
        rw [hy2] at he
        cases he
    · have hcp2 : encPrimD (projD c) = false := by
        cases hq : encPrimD (projD c)
        · rfl
        · exact absurd hq hcp
      simp [goodAfter, hcp2]
  refine ⟨?_, ?_, ?_, hChain, hLast, ?_, ?_, ?_⟩
  · intro x hx
    rw [hS_tail] at hx
    cases hx
  · intro p hp
    rw [hS_last] at hp
    injection hp with hp
    rw [← hp]
    exact hNew_ne
  · intro hh
    rw [hS_last] at hh
    cases hh
  · intro hdf x hx
    have hv : projD x ∈ S.acc.map projD := List.mem_map.mpr ⟨x, hx, rfl⟩
    rw [hD] at hv
    rcases List.mem_append.mp hv with hv | hv
    · obtain ⟨y, hy, hxy⟩ := List.mem_map.mp hv
      rw [encPrimDefaultE_eq, ← hxy, ← encPrimDefaultE_eq]
      exact h6 (by rw [← hS_def]; exact hdf) y hy
    · have heq := List.mem_singleton.mp hv
      rw [encPrimDefaultE_eq, heq]
      have := hdp (by rw [← hS_def]; exact hdf)
      rw [encPrimDefaultE_eq] at this
      exact this
  · rw [hD, List.pairwise_append]
    refine ⟨h7, List.pairwise_singleton _ _, ?_⟩
    intro a ha b hb
    rw [List.mem_singleton.mp hb]
    exact hcross a ha
  · rw [hD, hS_diags]
    exact forall₂_concat h8 hrel

theorem markTerm_projD (c : Enc) : projD (markTerm c) = projD c := by
  unfold markTerm
  by_cases hb : c.isBitfield = true
  · rw [if_pos hb]
    rfl
  · rw [if_neg hb]

theorem markTerm_ne (c : Enc) : (markTerm c).isNotEncoded = c.isNotEncoded := by
  unfold markTerm
  by_cases hb : c.isBitfield = true
  · rw [if_pos hb]
    rfl
  · rw [if_neg hb]

theorem markTerm_bf (c : Enc) : (markTerm c).isBitfield = c.isBitfield := by
  unfold markTerm
  by_cases hb : c.isBitfield = true
  · rw [if_pos hb]
    rfl
  · rw [if_neg hb]

theorem markTerm_bstart (c : Enc) : (markTerm c).startingBitCount = c.startingBitCount := by
  unfold markTerm
  by_cases hb : c.isBitfield = true
  · rw [if_pos hb]
  · rw [if_neg hb]

theorem markTerm_term (c : Enc) (hb : c.isBitfield = true) :
    (markTerm c).terminatesBitfield = true := by
  unfold markTerm
  rw [if_pos hb]

theorem markTerm_epd (c : Enc) :
    Enc.encPrimDefaultE (markTerm c) = Enc.encPrimDefaultE c := by
  rw [encPrimDefaultE_eq, encPrimDefaultE_eq, markTerm_projD]

theorem encodedOf_single (c : Enc) (hne : c.isNotEncoded = false) :
    encodedOf [c] = [c] := by
  simp only [encodedOf, List.filter_cons, List.filter_nil]
  rw [hne]
  rfl

theorem stepPush_inv (sname : String) (pre : List Enc) (st : ParseState) (c0 c : Enc)
    (h : Inv sname pre st)
    (hne : c.isNotEncoded = false)
    (hprojD : projD c = projD c0)
    (hdp : st.defaults = false → Enc.encPrimDefaultE c = false)
    (hsfx : encPrimD (projD c) = true → (projD c).dflt = false →
      ∀ x ∈ st.acc, Enc.encPrimDefaultE x = false) :
    Inv sname (pre ++ [c0]) (stepPush st c) := by
  have h1 := h.1
  have h2 := h.2.1
  have h3 := h.2.2.1
  have h4 := h.2.2.2.1
  have h5 := h.2.2.2.2.1
  have hcm_ne : (markTerm c).isNotEncoded = false := by rw [markTerm_ne]; exact hne
  have hcm_lastOKB : lastOKB (projB (markTerm c)) = true := by
    by_cases hb : c.isBitfield = true
    · have ht := markTerm_term c hb
      have hbterm : (projB (markTerm c)).bterm = (markTerm c).terminatesBitfield := rfl
      simp [lastOKB, hbterm, ht]
    · have hb2 : c.isBitfield = false := by
        cases hq : c.isBitfield
        · rfl
        · exact absurd hq hb
      have hbf : (projB (markTerm c)).bf = false := by
        rw [show (projB (markTerm c)).bf = (markTerm c).isBitfield from rfl, markTerm_bf, hb2]
      simp [lastOKB, hbf]
  have hcm_enc1 : encodedOf [markTerm c] = [markTerm c] := encodedOf_single _ hcm_ne
  rw [stepPush]
  cases hle : st.lastEnc with
  | none =>
    have hfr : st.front = [] := h3 hle
    have haccold : st.acc = st.tailNE := by
      rw [ParseState.acc, hle, hfr]
      simp
    rw [show stepPushAux st (markTerm c) none
      = { st with front := st.front ++ st.tailNE,
                  lastEnc := some (markTerm c), tailNE := [] } from rfl]
    refine inv_of_parts sname pre st _ c0 c (markTerm c) h rfl rfl rfl rfl hcm_ne ?_ ?_ ?_
      hprojD hdp hsfx
    · show ((st.front ++ st.tailNE) ++ [markTerm c] ++ []).map projD
        = st.acc.map projD ++ [projD c]
      rw [ParseState.acc, hle]
      simp [markTerm_projD]
    · show List.Chain' BPairR ((encodedOf ((st.front ++ st.tailNE) ++ [markTerm c] ++ [])).map projB)
      rw [List.append_nil, encodedOf_append, encodedOf_append, hfr]
      rw [encodedOf_nil_of_all_ne st.tailNE h1, hcm_enc1]
      simp only [encodedOf, List.filter_nil, List.nil_append, List.map_cons, List.map_nil]
      exact List.chain'_singleton _
    · show lastBP ((encodedOf ((st.front ++ st.tailNE) ++ [markTerm c] ++ [])).map projB) = true
      rw [List.append_nil, encodedOf_append, encodedOf_append, hfr]
      rw [encodedOf_nil_of_all_ne st.tailNE h1, hcm_enc1]
      simp only [encodedOf, List.filter_nil, List.nil_append, List.map_cons, List.map_nil]
      rw [show ([projB (markTerm c)] : List BView) = [] ++ [projB (markTerm c)] from rfl,
        lastBP_concat]
      exact hcm_lastOKB
  | some p =>
    have hpne : p.isNotEncoded = false := h2 p hle
    have haccold : st.acc = st.front ++ [p] ++ st.tailNE := by
      rw [ParseState.acc, hle]
      rfl
    have hEold : (encodedOf st.acc).map projB
        = (encodedOf st.front).map projB ++ [projB p] := by
      rw [haccold, encodedOf_append, encodedOf_append]
      rw [encodedOf_nil_of_all_ne st.tailNE h1, encodedOf_single p hpne]
      simp
    have hlastp : lastOKB (projB p) = true := by
      have h5b := h5
      rw [hEold, lastBP_concat] at h5b
      exact h5b
    rw [show stepPushAux st (markTerm c) (some p)
      = if p.isBitfield && (markTerm c).isBitfield then
          { st with
            front := st.front ++ [{ p with terminatesBitfield := false }] ++ st.tailNE,
            lastEnc := some { markTerm c with startingBitCount := p.getEndingBitCount },
            tailNE := [] }
        else
          { st with front := st.front ++ [p] ++ st.tailNE,
                    lastEnc := some (markTerm c), tailNE := [] } from rfl]
    by_cases hbb : (p.isBitfield && (markTerm c).isBitfield) = true
    · rw [if_pos hbb]
      have hpbf : p.isBitfield = true := ((Bool.and_eq_true _ _).mp hbb).1
      have hcmbf : (markTerm c).isBitfield = true := ((Bool.and_eq_true _ _).mp hbb).2
      have hcbf : c.isBitfield = true := by rw [← markTerm_bf]; exact hcmbf
      have hc2_ne : ({ markTerm c with startingBitCount := p.getEndingBitCount } : Enc).isNotEncoded
          = false := by
        rw [show ({ markTerm c with startingBitCount := p.getEndingBitCount } : Enc).isNotEncoded
          = (markTerm c).isNotEncoded from rfl]
        exact hcm_ne
      refine inv_of_parts sname pre st _ c0 c _ h rfl rfl rfl rfl hc2_ne ?_ ?_ ?_
        hprojD hdp hsfx
      · show ((st.front ++ [{ p with terminatesBitfield := false }] ++ st.tailNE)
            ++ [{ markTerm c with startingBitCount := p.getEndingBitCount }] ++ []).map projD
          = st.acc.map projD ++ [projD c]
        rw [haccold]
        simp only [List.append_nil, List.map_append, List.map_cons, List.map_nil,
          List.append_assoc]
        rw [show projD { p with terminatesBitfield := false } = projD p from rfl]
        rw [show projD { markTerm c with startingBitCount := p.getEndingBitCount }
          = projD (markTerm c) from rfl]
        rw [markTerm_projD]
      · show List.Chain' BPairR ((encodedOf ((st.front ++ [{ p with terminatesBitfield := false }]
            ++ st.tailNE) ++ [{ markTerm c with startingBitCount := p.getEndingBitCount }] ++ [])).map projB)
        rw [List.append_nil, encodedOf_append, encodedOf_append, encodedOf_append]
        rw [encodedOf_nil_of_all_ne st.tailNE h1]
        rw [encodedOf_single { p with terminatesBitfield := false }
          (by rw [show ({ p with terminatesBitfield := false } : Enc).isNotEncoded
            = p.isNotEncoded from rfl]; exact hpne)]
        rw [encodedOf_single { markTerm c with startingBitCount := p.getEndingBitCount }
          (by rw [show ({ markTerm c with startingBitCount := p.getEndingBitCount } : Enc).isNotEncoded
            = (markTerm c).isNotEncoded from rfl]; exact hcm_ne)]
        simp only [List.append_nil, List.map_append, List.map_cons, List.map_nil]
        have hchainF : List.Chain' BPairR ((encodedOf st.front).map projB
            ++ [projB { p with terminatesBitfield := false }]) := by
          have hold := h4
          rw [hEold] at hold
          rw [List.chain'_append] at hold ⊢
          refine ⟨hold.1, List.chain'_singleton _, ?_⟩
          intro x hx y hy
          simp only [List.head?_cons, Option.mem_def, Option.some.injEq] at hy
          subst hy
          have hxp := hold.2.2 x hx (projB p) (by simp)
          show pairBOK x (projB { p with terminatesBitfield := false }) = true
          rw [pairBOK_snd_congr x (projB p) (projB { p with terminatesBitfield := false }) rfl rfl]
          exact hxp
        rw [show (encodedOf st.front).map projB ++ [projB { p with terminatesBitfield := false }]
            ++ [projB { markTerm c with startingBitCount := p.getEndingBitCount }]
          = ((encodedOf st.front).map projB ++ [projB { p with terminatesBitfield := false }])
            ++ [projB { markTerm c with startingBitCount := p.getEndingBitCount }] by
          simp [List.append_assoc]]
        refine chain_bpair_concat _ _ hchainF ?_
        intro x hx
        rw [List.getLast?_concat] at hx
        injection hx with hx
        rw [← hx]
        show pairBOK (projB { p with terminatesBitfield := false })
          (projB { markTerm c with startingBitCount := p.getEndingBitCount }) = true
        have hb1 : (projB { p with terminatesBitfield := false }).bf = true := hpbf
        have hb2 : (projB { markTerm c with startingBitCount := p.getEndingBitCount }).bf
            = true := by
          rw [show (projB { markTerm c with startingBitCount := p.getEndingBitCount }).bf
            = (markTerm c).isBitfield from rfl]
          exact hcmbf
        simp only [pairBOK, hb1, hb2, if_true]
        rw [show (projB { p with terminatesBitfield := false }).bterm = false from rfl]
        rw [show (projB { markTerm c with startingBitCount := p.getEndingBitCount }).bstart
          = p.getEndingBitCount from rfl]
        rw [show (projB { p with terminatesBitfield := false }).bstart
          = p.startingBitCount from rfl]
        rw [show (projB { p with terminatesBitfield := false }).bbits = p.bits from rfl]
        rw [Enc.getEndingBitCount]
        simp
      · show lastBP ((encodedOf ((st.front ++ [{ p with terminatesBitfield := false }]
            ++ st.tailNE) ++ [{ markTerm c with startingBitCount := p.getEndingBitCount }] ++ [])).map projB) = true
        rw [List.append_nil, encodedOf_append]
        rw [encodedOf_single { markTerm c with startingBitCount := p.getEndingBitCount }
          (by rw [show ({ markTerm c with startingBitCount := p.getEndingBitCount } : Enc).isNotEncoded
            = (markTerm c).isNotEncoded from rfl]; exact hcm_ne)]
        simp only [List.map_append, List.map_cons, List.map_nil]
        rw [lastBP_concat]
        have hbt : (projB { markTerm c with startingBitCount := p.getEndingBitCount }).bterm
            = (markTerm c).terminatesBitfield := rfl
        unfold lastOKB
        rw [hbt, markTerm_term c hcbf]
        simp
    · rw [if_neg hbb]
      refine inv_of_parts sname pre st _ c0 c (markTerm c) h rfl rfl rfl rfl hcm_ne ?_ ?_ ?_
        hprojD hdp hsfx
      · show ((st.front ++ [p] ++ st.tailNE) ++ [markTerm c] ++ []).map projD
          = st.acc.map projD ++ [projD c]
        rw [haccold]
        simp [markTerm_projD]
      · show List.Chain' BPairR ((encodedOf ((st.front ++ [p] ++ st.tailNE) ++ [markTerm c] ++ [])).map projB)
        rw [List.append_nil, ← haccold, encodedOf_append, hcm_enc1]
        simp only [List.map_append, List.map_cons, List.map_nil]
        refine chain_bpair_concat _ _ h4 ?_
        intro x hx
        rw [hEold, List.getLast?_concat] at hx
        injection hx with hx
        rw [← hx]
        show pairBOK (projB p) (projB (markTerm c)) = true
        by_cases hpbf : p.isBitfield = true
        · have hcmbf : (markTerm c).isBitfield = false := by
            cases hq : (markTerm c).isBitfield
            · rfl
            · exact absurd ((Bool.and_eq_true _ _).mpr ⟨hpbf, hq⟩) hbb
          have hb1 : (projB p).bf = true := hpbf
          have hb2 : (projB (markTerm c)).bf = false := hcmbf
          simp only [pairBOK, hb1, hb2, if_true, if_false]
          have h5c := hlastp
          simp only [lastOKB, hb1, Bool.not_true, Bool.false_or] at h5c
          exact h5c
        · have hb1 : (projB p).bf = false := by
            rw [show (projB p).bf = p.isBitfield from rfl]
            exact bool_false_of_not_true hpbf
          simp [pairBOK, hb1]
      · show lastBP ((encodedOf ((st.front ++ [p] ++ st.tailNE) ++ [markTerm c] ++ [])).map projB) = true
        rw [List.append_nil, ← haccold, encodedOf_append, hcm_enc1]
        simp only [List.map_append, List.map_cons, List.map_nil]
        rw [lastBP_concat]
        exact hcm_lastOKB

theorem stepMeta_defaults_false (sname : String) (st : ParseState) (c : Enc)
    (hp : c.isPrimitive = true) (hd : c.usesDefaults = false) :
    (stepMeta sname st c).defaults = false := by
  unfold stepMeta
  rw [if_pos hp]
  dsimp only
  rw [if_neg (by simp [hd])]
  by_cases hdf : st.defaults = true
  · rw [if_pos hdf]
  · rw [if_neg hdf]
    exact bool_false_of_not_true hdf

theorem step_inv (sname : String) (pre : List Enc) (st : ParseState) (c : Enc)
    (h : Inv sname pre st) : Inv sname (pre ++ [c]) (step sname st c) := by
  unfold step
  by_cases hne : c.isNotEncoded = true
  · rw [if_pos hne]
    obtain ⟨h1, h2, h3, h4, h5, h6, h7, h8⟩ := h
    have hacc : (ParseState.mk st.front st.lastEnc (st.tailNE ++ [c])
        st.bitfields st.needsIterator st.defaults st.diags).acc = st.acc ++ [c] := by
      rw [ParseState.acc, ParseState.acc]
      simp
    have hEnc : encodedOf (st.acc ++ [c]) = encodedOf st.acc := by
      rw [encodedOf_append, encodedOf_nil_of_all_ne [c] (by
        intro x hx
        rw [List.mem_singleton.mp hx]
        exact hne)]
      simp
    refine ⟨?_, h2, h3, ?_, ?_, ?_, ?_, ?_⟩
    · intro x hx
      rcases List.mem_append.mp hx with hx | hx
      · exact h1 x hx
      · rw [List.mem_singleton.mp hx]
        exact hne
    · show List.Chain' BPairR ((encodedOf ((ParseState.mk _ _ _ _ _ _ _).acc)).map projB)
      rw [hacc, hEnc]
      exact h4
    · show lastBP ((encodedOf ((ParseState.mk _ _ _ _ _ _ _).acc)).map projB) = true
      rw [hacc, hEnc]
      exact h5
    · intro hdf x hx
      rw [hacc] at hx
      rcases List.mem_append.mp hx with hx | hx
      · exact h6 hdf x hx
      · rw [List.mem_singleton.mp hx]
        simp [Enc.encPrimDefaultE, show c.notEncoded = true from hne]
    · show List.Pairwise DSuffixR (((ParseState.mk _ _ _ _ _ _ _).acc).map projD)
      rw [hacc, List.map_append, List.pairwise_append]
      refine ⟨h7, List.pairwise_singleton _ _, ?_⟩
      intro a _ b hb
      rw [List.mem_singleton.mp hb]
      intro _
      have : encPrimD (projD c) = false := by
        simp [encPrimD, projD, show c.notEncoded = true from hne]
      simp [goodAfter, this]
    · show List.Forall₂ _ (pre ++ [c]) (((ParseState.mk _ _ _ _ _ _ _).acc).map projD)
      rw [hacc, List.map_append]
      refine forall₂_concat h8 ⟨rfl, ?_⟩
      intro hda hdc
      rw [show (projD c).dflt = c.hasDefault from rfl, hda] at hdc
      cases hdc
  · rw [if_neg hne]
    have hne2 : c.isNotEncoded = false := bool_false_of_not_true hne
    dsimp only
    have hInv1 := stepMeta_inv sname pre st c h
    obtain ⟨ds1, va, hva⟩ := stepVarArray_spec sname (stepMeta sname st c) c
    rw [hva]
    dsimp only
    obtain ⟨ds2, dep, hdep⟩ := stepDependsOn_spec sname
      { stepMeta sname st c with diags := (stepMeta sname st c).diags ++ ds1 }
      { c with variableArray := va }
    rw [hdep]
    dsimp only
    have hInv2 := inv_diags_append sname pre _ ds1 hInv1
    have hInv3 := inv_diags_append sname pre _ ds2 hInv2
    refine stepPush_inv sname pre _ c
      { { c with variableArray := va } with dependsOn := dep } hInv3 ?_ ?_ ?_ ?_
    · exact hne2
    · rfl
    · intro hdf
      show Enc.encPrimDefaultE { c with variableArray := va, dependsOn := dep } = false
      have hdf1 : (stepMeta sname st c).defaults = false := hdf
      rw [show Enc.encPrimDefaultE { c with variableArray := va, dependsOn := dep }
        = Enc.encPrimDefaultE c from rfl]
      by_cases hp : c.isPrimitive = true
      · by_cases hd : c.usesDefaults = true
        · exfalso
          have : (stepMeta sname st c).defaults = true := by
            unfold stepMeta
            rw [if_pos hp]
            dsimp only
            rw [if_pos hd]
          rw [this] at hdf1
          cases hdf1
        · have : c.hasDefault = false := bool_false_of_not_true hd
          simp [Enc.encPrimDefaultE, this]
      · have : c.isStructure = true := by
          have := bool_false_of_not_true hp
          rw [Enc.isPrimitive] at this
          cases hq : c.isStructure
          · rw [hq] at this
            cases this
          · rfl
        simp [Enc.encPrimDefaultE, this]
    · intro hcp hcd
      show ∀ x ∈ ({ stepMeta sname st c with
        diags := (stepMeta sname st c).diags ++ ds1 ++ ds2 } : ParseState).acc,
        Enc.encPrimDefaultE x = false
      intro x hx
      have hp : c.isPrimitive = true := by
        have : (projD { c with variableArray := va, dependsOn := dep }).struc
            = c.isStructure := rfl
        rw [encPrimD] at hcp
        rw [Bool.and_eq_true] at hcp
        have hstruc := hcp.2
        rw [this] at hstruc
        rw [Enc.isPrimitive]
        exact hstruc
      have hd : c.usesDefaults = false := by
        rw [show (projD { c with variableArray := va, dependsOn := dep }).dflt
          = c.hasDefault from rfl] at hcd
        exact hcd
      have hdf1 : (stepMeta sname st c).defaults = false :=
        stepMeta_defaults_false sname st c hp hd
      have hInv2acc : ({ stepMeta sname st c with
          diags := (stepMeta sname st c).diags ++ ds1 ++ ds2 } : ParseState).acc
          = (stepMeta sname st c).acc := rfl
      rw [hInv2acc] at hx
      exact hInv1.2.2.2.2.2.1 hdf1 x hx

/-- The invariant holds of the initial loop state. -/
theorem init_inv (sname : String) :
    Inv sname [] ⟨[], none, [], false, false, false, []⟩ := by
  refine ⟨?_, ?_, ?_, ?_, ?_, ?_, ?_, ?_⟩
  · intro x hx
    cases hx
  · intro p hp
    cases hp
  · intro _
    rfl
  · exact List.chain'_nil
  · rfl
  · intro _ x hx
    cases hx
  · exact List.Pairwise.nil
  · exact List.Forall₂.nil

theorem foldl_inv (sname : String) :
    ∀ (cs pre : List Enc) (st : ParseState), Inv sname pre st →
      Inv sname (pre ++ cs) (List.foldl (step sname) st cs) := by
  intro cs
  induction cs with
  | nil =>
    intro pre st h
    simpa using h
  | cons c r ih =>
    intro pre st h
    have h1 := step_inv sname pre st c h
    have h2 := ih (pre ++ [c]) _ h1
    rw [List.append_assoc] at h2
    simpa using h2

/-- The parseChildren invariant, at the end of the loop. -/
theorem parseChildren_inv (sname : String) (cs : List Enc) :
    Inv sname cs (parseChildren sname cs) := by
  have h := foldl_inv sname cs [] _ (init_inv sname)
  simpa [parseChildren] using h

/-- A surviving default on an encoded primitive child forces the defaults
flag of the structure. -/
theorem defaults_flag_of_surviving (sname : String) (cs : List Enc)
    (h : ∃ c ∈ (parseChildren sname cs).acc, Enc.encPrimDefaultE c = true) :
    (parseChildren sname cs).defaults = true := by
  obtain ⟨c, hc, hcd⟩ := h
  by_cases hq : (parseChildren sname cs).defaults = true
  · exact hq
  · have h6 := (parseChildren_inv sname cs).2.2.2.2.2.1
    have := h6 (bool_false_of_not_true hq) c hc
    rw [this] at hcd
    cases hcd

/-! ## Claim theorems about parseChildren -/

/-- A plain primitive field with no attributes, used as a base for the
concrete inputs below. -/
def mkField (nm : String) : Enc :=
  { name := nm, isStructure := false, notEncoded := false, notInMemory := false,
    isConst := false, bits := 0, hasDefault := false, array := "",
    variableArray := "", dependsOn := "", terminatesBitfield := false,
    startingBitCount := 0 }

/-- A nested structure child declared as an array of 4 elements, named n. -/
def sArrDemo : Enc := { mkField "n" with isStructure := true, array := "4" }

/-- A primitive array field whose variableArray attribute references n. -/
def vaFieldDemo : Enc := { mkField "f" with array := "8", variableArray := "n" }

/-- C3 (code bug evidence): in a structure whose first child is a nested
structure array named n and whose second child is a primitive field with
variableArray referencing n, the parse keeps the variableArray attribute
and prints no diagnostic, although the only prior sibling is not a
primitive field: the sibling test accepts any prior array because the
condition negates only the conjunction of not-primitive and not-array,
while the source comment (and the claim) demand a primitive sibling. -/
theorem variableArray_keeps_structure_array_sibling :
    ((parseChildren "s" [sArrDemo, vaFieldDemo]).acc.map fun c => c.variableArray)
        = ["", "n"]
    ∧ ((parseChildren "s" [sArrDemo, vaFieldDemo]).acc.map fun c => c.isPrimitive)
        = [false, true]
    ∧ ((parseChildren "s" [sArrDemo, vaFieldDemo]).acc.map fun c => c.name)
        = ["n", "f"]
    ∧ (parseChildren "s" [sArrDemo, vaFieldDemo]).diags = [] := by
  refine ⟨?_, ?_, ?_, ?_⟩ <;> rfl

/-- C4: after a structure is parsed, in every maximal consecutive run of
encoded bitfield primitives exactly one member terminates the bitfield and
it is the last one, and the starting bit count of each later member equals
the ending bit count (starting bit count plus width) of its predecessor.
`runsOKb` states precisely this: for adjacent encoded children, a bitfield
followed by a bitfield is not a terminator and chains its ending bit count
into the starting bit count of the successor, a bitfield followed by a
non-bitfield is a terminator, and a final bitfield is a terminator. -/
theorem bitfield_runs_terminated (sname : String) (cs : List Enc) :
    runsOKb (parseChildren sname cs).acc = true := by
  have h := parseChildren_inv sname cs
  rw [runsOKb, Bool.and_eq_true]
  exact ⟨(chainBP_iff _).mpr h.2.2.2.1, h.2.2.2.2.1⟩

/-- C5: after a structure is parsed, default-valued fields form a
contiguous suffix of the encoded primitive children (`suffixOKb`), and
every child whose default value was revoked during parsing has a printed
diagnostic line naming it; child names are preserved in order. -/
theorem defaults_contiguous_suffix (sname : String) (cs : List Enc) :
    suffixOKb (parseChildren sname cs).acc = true
    ∧ List.Forall₂ (fun (a b : Enc) => a.name = b.name ∧
        (a.hasDefault = true → b.hasDefault = false →
          (sname, a.name, revokeMsg) ∈ (parseChildren sname cs).diags)) cs
        (parseChildren sname cs).acc := by
  have h := parseChildren_inv sname cs
  constructor
  · rw [suffixOKb, suffixOKbP_iff]
    exact h.2.2.2.2.2.2.1
  · have h8 := h.2.2.2.2.2.2.2
    rw [List.forall₂_map_right_iff] at h8
    exact h8

/-! ## Claim theorems about the packet decode emission -/

theorem decodeNonDefaultLoop_eq (l : List Enc) :
    decodeNonDefaultLoop l =
      ((l.takeWhile fun c => !c.isDefault).map fun c => PStmt.decodeField c.name,
       (l.takeWhile fun c => !c.isDefault).length) := by
  induction l with
  | nil => rfl
  | cons c r ih =>
    by_cases hd : c.isDefault = true
    · simp [decodeNonDefaultLoop, List.takeWhile_cons, hd]
    · have hd2 : c.isDefault = false := bool_false_of_not_true hd
      simp [decodeNonDefaultLoop, List.takeWhile_cons, hd2, ih]

theorem drop_takeWhile_length (p : Enc → Bool) (l : List Enc) :
    l.drop (l.takeWhile p).length = l.dropWhile p := by
  induction l with
  | nil => rfl
  | cons c r ih =>
    by_cases hp : p c = true
    · simp [List.takeWhile_cons, List.dropWhile_cons, hp, ih]
    · have hp2 : p c = false := bool_false_of_not_true hp
      simp [List.takeWhile_cons, List.dropWhile_cons, hp2]

theorem filterMap_setToDefaults (l : List Enc) :
    l.filterMap setToDefaultsStmt
      = (l.filter fun c => c.isDefault).map fun c => PStmt.setDefault c.name := by
  induction l with
  | nil => rfl
  | cons c r ih =>
    by_cases hd : c.isDefault = true
    · simp [List.filterMap_cons, List.filter_cons, setToDefaultsStmt, hd, ih]
    · have hd2 : c.isDefault = false := bool_false_of_not_true hd
      simp [List.filterMap_cons, List.filter_cons, setToDefaultsStmt, hd2, ih]

/-- The decode layout the claim describes, written from the claim wording:
identifier and size checks first, then the default initialisations, then
the non-default prefix of fields in order, then the short packet check
exactly when the minimum and non-default lengths differ and the prefix is
nonempty, then the remaining fields, then return 1. -/
def specDecodeLayout (p : Packet) : List PStmt :=
  [PStmt.idCheck p.protoName (p.prefixStr ++ p.name),
   PStmt.sizeCheck p.protoName (p.prefixStr ++ p.name)]
  ++ ((p.encodables.filter fun c => c.isDefault).map fun c => PStmt.setDefault c.name)
  ++ ((p.encodables.takeWhile fun c => !c.isDefault).map fun c => PStmt.decodeField c.name)
  ++ (if p.minEncodedLength ≠ p.nonDefaultEncodedLength
        ∧ (p.encodables.takeWhile fun c => !c.isDefault) ≠ [] then [PStmt.shortCheck] else [])
  ++ ((p.encodables.dropWhile fun c => !c.isDefault).map fun c => PStmt.decodeField c.name)
  ++ [PStmt.return1]

theorem shortCheck_cond (minL nonDefL : String) (t : List Enc) :
    (if (!(minL == nonDefL) && decide (0 < t.length)) = true
      then ([PStmt.shortCheck] : List PStmt) else [])
    = (if minL ≠ nonDefL ∧ t ≠ [] then [PStmt.shortCheck] else []) := by
  by_cases hm : minL = nonDefL
  · subst hm
    simp
  · by_cases ht : t = []
    · subst ht
      simp
    · have hlen : 0 < t.length := List.length_pos.mpr ht
      have hbeq : (minL == nonDefL) = false := by
        rw [beq_eq_false_iff_ne]
        exact hm
      simp [hm, ht, hbeq, hlen]

theorem decode_stmts_eq_layout (p : Packet)
    (hnum : 0 < getNumberOfEncodes p.encodables)
    (hdef : p.defaults = true) :
    structurePacketDecodeStmts p = specDecodeLayout p
    ∧ packetDecodeStmts p = specDecodeLayout p := by
  constructor
  · rw [structurePacketDecodeStmts, if_pos hnum, decodeNonDefaultLoop_eq]
    dsimp only
    rw [specDecodeLayout]
    rw [if_pos (show p.defaults = true from hdef)]
    rw [filterMap_setToDefaults]
    rw [drop_takeWhile_length]
    rw [shortCheck_cond p.minEncodedLength p.nonDefaultEncodedLength
      (p.encodables.takeWhile fun c => !c.isDefault)]
  · rw [packetDecodeStmts, if_pos hnum, decodeNonDefaultLoop_eq]
    dsimp only
    rw [specDecodeLayout]
    rw [if_pos (show p.defaults = true from hdef)]
    rw [filterMap_setToDefaults]
    rw [drop_takeWhile_length]
    rw [shortCheck_cond p.minEncodedLength p.nonDefaultEncodedLength
      (p.encodables.takeWhile fun c => !c.isDefault)]

/-- C1: for a packet parsed from children among which an encoded primitive
field keeps a default value, both generated decode functions initialise
the defaulted fields first, decode the non-default prefix of fields in
order, insert the numBytes short packet check exactly when
minEncodedLength differs from nonDefaultEncodedLength and at least one
non-default field was decoded, then decode the default suffix and
return 1 (the layout `specDecodeLayout`). -/
theorem decode_defaults_layout (proto pfx nm sname minL nonDefL : String)
    (cs : List Enc)
    (hdef : ∃ c ∈ (parseChildren sname cs).acc, Enc.encPrimDefaultE c = true) :
    structurePacketDecodeStmts (packetOfParse proto pfx nm sname cs minL nonDefL)
      = specDecodeLayout (packetOfParse proto pfx nm sname cs minL nonDefL)
    ∧ packetDecodeStmts (packetOfParse proto pfx nm sname cs minL nonDefL)
      = specDecodeLayout (packetOfParse proto pfx nm sname cs minL nonDefL) := by
  obtain ⟨c, hc, hcd⟩ := hdef
  have hcne : c.isNotEncoded = false := by
    rw [Enc.encPrimDefaultE] at hcd
    rw [Bool.and_eq_true, Bool.and_eq_true] at hcd
    have := hcd.1.1
    rw [Bool.not_eq_true'] at this
    exact this
  have hnum : 0 < getNumberOfEncodes
      ((packetOfParse proto pfx nm sname cs minL nonDefL).encodables) := by
    have hmem : c ∈ (parseChildren sname cs).acc.filter fun x => !x.isNotEncoded := by
      rw [List.mem_filter]
      exact ⟨hc, by rw [hcne]; rfl⟩
    rw [show (packetOfParse proto pfx nm sname cs minL nonDefL).encodables
      = (parseChildren sname cs).acc from rfl]
    rw [getNumberOfEncodes]
    exact List.length_pos.mpr (List.ne_nil_of_mem hmem)
  have hdefaults : (packetOfParse proto pfx nm sname cs minL nonDefL).defaults = true := by
    rw [show (packetOfParse proto pfx nm sname cs minL nonDefL).defaults
      = (parseChildren sname cs).defaults from rfl]
    exact defaults_flag_of_surviving sname cs ⟨c, hc, hcd⟩
  exact decode_stmts_eq_layout _ hnum hdefaults

/-- Children of the concrete witness packet: one plain field a, one field
z with a default value. -/
def demoKids : List Enc := [mkField "a", { mkField "z" with hasDefault := true }]

/-- Closed instance of the C1 layout theorem on a concrete packet. -/
theorem decode_defaults_layout_witness :
    (∃ c ∈ (parseChildren "Demo" demoKids).acc, Enc.encPrimDefaultE c = true)
    ∧ structurePacketDecodeStmts (packetOfParse "Proto" "" "Demo" "Demo" demoKids "8" "4")
      = specDecodeLayout (packetOfParse "Proto" "" "Demo" "Demo" demoKids "8" "4")
    ∧ packetDecodeStmts (packetOfParse "Proto" "" "Demo" "Demo" demoKids "8" "4")
      = specDecodeLayout (packetOfParse "Proto" "" "Demo" "Demo" demoKids "8" "4") :=
  ⟨by decide,
   (decode_defaults_layout "Proto" "" "Demo" "Demo" "8" "4" demoKids (by decide)).1,
   (decode_defaults_layout "Proto" "" "Demo" "Demo" "8" "4" demoKids (by decide)).2⟩

/-- The Ping packet of the spec seed: no children at all. -/
def pingPacket : Packet :=
  { protoName := "Proto", prefixStr := "", name := "Ping", encodables := [],
    bitfields := false, needsIterator := false, defaults := false,
    minEncodedLength := "", nonDefaultEncodedLength := "" }

/-- C2 counterexample: for a packet with no encoded fields the generated
decode bodies consist of the identifier check and return 1 only; no
numBytes size check is emitted, so the claim that every generated decode
verifies the minimum data length fails on this packet. -/
theorem decode_empty_packet_no_size_check :
    packetDecodeStmts pingPacket = [PStmt.idCheck "Proto" "Ping", PStmt.return1]
    ∧ structurePacketDecodeStmts pingPacket
        = [PStmt.idCheck "Proto" "Ping", PStmt.return1]
    ∧ PStmt.sizeCheck "Proto" "Ping" ∉ packetDecodeStmts pingPacket
    ∧ protocolPacketParseFns false false pingPacket =
        [⟨FnKind.paramEncode, [PStmt.finishPacket true]⟩,
         ⟨FnKind.paramDecode, [PStmt.idCheck "Proto" "Ping", PStmt.return1]⟩] := by
  refine ⟨rfl, rfl, by decide, rfl⟩

/-- C2 amended: for every packet with at least one encoded field, both
generated decode functions start with the packet identifier check followed
by the numBytes minimum data length check, before any payload statement,
and the happy path ends with return 1; for a packet with no encoded fields
the decode body is the identifier check and return 1 only. -/
theorem decode_checks_precede_payload (p : Packet) :
    (0 < getNumberOfEncodes p.encodables →
      (∃ mid, structurePacketDecodeStmts p =
        PStmt.idCheck p.protoName (p.prefixStr ++ p.name)
          :: PStmt.sizeCheck p.protoName (p.prefixStr ++ p.name)
          :: (mid ++ [PStmt.return1]))
      ∧ (∃ mid, packetDecodeStmts p =
        PStmt.idCheck p.protoName (p.prefixStr ++ p.name)
          :: PStmt.sizeCheck p.protoName (p.prefixStr ++ p.name)
          :: (mid ++ [PStmt.return1])))
    ∧ (getNumberOfEncodes p.encodables = 0 →
      structurePacketDecodeStmts p
          = [PStmt.idCheck p.protoName (p.prefixStr ++ p.name), PStmt.return1]
      ∧ packetDecodeStmts p
          = [PStmt.idCheck p.protoName (p.prefixStr ++ p.name), PStmt.return1]) := by
  constructor
  · intro hnum
    constructor
    · refine ⟨(if p.defaults then p.encodables.filterMap setToDefaultsStmt else [])
        ++ (decodeNonDefaultLoop p.encodables).1
        ++ (if !(p.minEncodedLength == p.nonDefaultEncodedLength)
              && decide (0 < (decodeNonDefaultLoop p.encodables).2)
            then [PStmt.shortCheck] else [])
        ++ (p.encodables.drop (decodeNonDefaultLoop p.encodables).2).map
            (fun c => PStmt.decodeField c.name), ?_⟩
      rw [structurePacketDecodeStmts, if_pos hnum]
      simp [List.append_assoc]
    · refine ⟨(if p.defaults then p.encodables.filterMap setToDefaultsStmt else [])
        ++ (decodeNonDefaultLoop p.encodables).1
        ++ (if !(p.minEncodedLength == p.nonDefaultEncodedLength)
              && decide (0 < (decodeNonDefaultLoop p.encodables).2)
            then [PStmt.shortCheck] else [])
        ++ (p.encodables.drop (decodeNonDefaultLoop p.encodables).2).map
            (fun c => PStmt.decodeField c.name), ?_⟩
      rw [packetDecodeStmts, if_pos hnum]
      simp [List.append_assoc]
  · intro hnum
    have hnot : ¬ 0 < getNumberOfEncodes p.encodables := by
      rw [hnum]
      exact Nat.lt_irrefl 0
    constructor
    · rw [structurePacketDecodeStmts, if_neg hnot]
    · rw [packetDecodeStmts, if_neg hnot]

/-- Closed instance of the amended C2 theorem on concrete packets. -/
theorem decode_checks_precede_payload_witness :
    (∃ mid, packetDecodeStmts (packetOfParse "Proto" "" "Demo" "Demo" demoKids "8" "4") =
      PStmt.idCheck "Proto" "Demo" :: PStmt.sizeCheck "Proto" "Demo"
        :: (mid ++ [PStmt.return1]))
    ∧ structurePacketDecodeStmts pingPacket
        = [PStmt.idCheck "Proto" "Ping", PStmt.return1] :=
  ⟨((decode_checks_precede_payload
      (packetOfParse "Proto" "" "Demo" "Demo" demoKids "8" "4")).1 (by decide)).2,
   ((decode_checks_precede_payload pingPacket).2 (by decide)).1⟩

/-! ## Claim theorems about interface selection -/

/-- C8: when the packet XML sets neither structureInterface nor
parameterInterface to true, exactly one interface is selected: the
parameter interface for at most one encodable child and the structure
interface for two or more; and with no children at all the emitted
functions are the parameter pair whose encode body is the single zero
length finishPacket call and whose decode body is the identifier check
and return 1 only. -/
theorem default_interface_choice (p : Packet) :
    (p.encodables.length ≤ 1 →
      interfaceFlags false false p.encodables.length = (false, true))
    ∧ (2 ≤ p.encodables.length →
      interfaceFlags false false p.encodables.length = (true, false))
    ∧ (p.encodables = [] →
      protocolPacketParseFns false false p =
        [⟨FnKind.paramEncode, [PStmt.finishPacket true]⟩,
         ⟨FnKind.paramDecode, [PStmt.idCheck p.protoName (p.prefixStr ++ p.name),
           PStmt.return1]⟩]) := by
  refine ⟨?_, ?_, ?_⟩
  · intro hle
    rw [interfaceFlags]
    by_cases h0 : p.encodables.length ≤ 0
    · rw [if_pos h0]
    · rw [if_neg h0]
      simp only [Bool.not_false, Bool.and_self, if_true]
      rw [if_pos hle]
  · intro hge
    rw [interfaceFlags]
    rw [if_neg (by omega)]
    simp only [Bool.not_false, Bool.and_self, if_true]
    rw [if_neg (by omega)]
  · intro hnil
    have hlen : p.encodables.length = 0 := by rw [hnil]; rfl
    have hnum : getNumberOfEncodes p.encodables = 0 := by rw [hnil]; rfl
    have hnot : ¬ 0 < getNumberOfEncodes p.encodables := by
      rw [hnum]
      exact Nat.lt_irrefl 0
    rw [protocolPacketParseFns, interfaceFlags, if_pos (by omega : p.encodables.length ≤ 0)]
    dsimp only
    rw [if_neg (by simp)]
    rw [if_pos rfl]
    rw [createPacketFns, packetEncodeStmts, packetDecodeStmts, if_neg hnot, if_neg hnot]
    simp

/-- Closed instance of the C8 theorem: the choice on zero, one and two
children, and the empty packet bodies. -/
theorem default_interface_choice_witness :
    interfaceFlags false false (packetOfParse "Proto" "" "One" "One"
      [mkField "a"] "1" "1").encodables.length = (false, true)
    ∧ interfaceFlags false false (packetOfParse "Proto" "" "Two" "Two"
      [mkField "a", mkField "b"] "2" "2").encodables.length = (true, false)
    ∧ protocolPacketParseFns false false pingPacket =
        [⟨FnKind.paramEncode, [PStmt.finishPacket true]⟩,
         ⟨FnKind.paramDecode, [PStmt.idCheck "Proto" "Ping", PStmt.return1]⟩] :=
  ⟨(default_interface_choice _).1 (by decide),
   (default_interface_choice _).2.1 (by decide),
   (default_interface_choice pingPacket).2.2 rfl⟩

/-- C10: when the packet XML sets both structureInterface and
parameterInterface to true and the packet has at least one encodable
child, the generator emits both interfaces into the same module: the
structure based encode and decode pair followed by the parameter based
encode and decode pair. -/
theorem dual_interface_emission (p : Packet) (h1 : 1 ≤ p.encodables.length) :
    protocolPacketParseFns true true p =
      [⟨FnKind.structEncode, structurePacketEncodeStmts p⟩,
       ⟨FnKind.structDecode, structurePacketDecodeStmts p⟩,
       ⟨FnKind.paramEncode, packetEncodeStmts p⟩,
       ⟨FnKind.paramDecode, packetDecodeStmts p⟩] := by
  have hfl : interfaceFlags true true p.encodables.length = (true, true) := by
    rw [interfaceFlags, if_neg (by omega)]
    rw [if_neg (by simp)]
  have hcond : (true && decide (0 < p.encodables.length)) = true := by
    simp only [Bool.true_and, decide_eq_true_eq]
    omega
  rw [protocolPacketParseFns, hfl]
  dsimp only
  rw [if_pos hcond, if_pos rfl]
  rfl

/-- Closed instance of the C10 theorem on a concrete packet. -/
theorem dual_interface_emission_witness :
    protocolPacketParseFns true true
        (packetOfParse "Proto" "" "Two" "Two" [mkField "a", mkField "b"] "2" "2") =
      [⟨FnKind.structEncode, structurePacketEncodeStmts
          (packetOfParse "Proto" "" "Two" "Two" [mkField "a", mkField "b"] "2" "2")⟩,
       ⟨FnKind.structDecode, structurePacketDecodeStmts
          (packetOfParse "Proto" "" "Two" "Two" [mkField "a", mkField "b"] "2" "2")⟩,
       ⟨FnKind.paramEncode, packetEncodeStmts
          (packetOfParse "Proto" "" "Two" "Two" [mkField "a", mkField "b"] "2" "2")⟩,
       ⟨FnKind.paramDecode, packetDecodeStmts
          (packetOfParse "Proto" "" "Two" "Two" [mkField "a", mkField "b"] "2" "2")⟩] :=
  dual_interface_emission _ (by decide)

/-! ## Claim theorem about the command line driver -/

/-- C9: the exit code of main is 1 exactly when the protocol parser was
invoked (the success path) and 0 otherwise, and when the input file cannot
be opened or its content is not well formed XML the parser is never
invoked, so no output file is produced: all generation happens inside the
parser call. -/
theorem main_exit_codes (m : MainInput) :
    ((mainRun m).exitCode = if (mainRun m).parserRan then 1 else 0)
    ∧ (m.fileOpens = false → (mainRun m).parserRan = false)
    ∧ (m.xmlWellFormed = false → (mainRun m).parserRan = false) := by
  unfold mainRun
  by_cases h0 : m.argv.length ≤ 1
  · rw [if_pos h0]
    exact ⟨rfl, fun _ => rfl, fun _ => rfl⟩
  · rw [if_neg h0]
    by_cases hf : (!(mainScan m.argv).filename == "") = true
    · rw [if_pos hf]
      by_cases ho : m.fileOpens = true
      · rw [if_pos ho]
        by_cases hx : m.xmlWellFormed = true
        · rw [if_pos hx]
          refine ⟨rfl, ?_, ?_⟩
          · intro hcon
            rw [ho] at hcon
            cases hcon
          · intro hcon
            rw [hx] at hcon
            cases hcon
        · rw [if_neg hx]
          exact ⟨rfl, fun _ => rfl, fun _ => rfl⟩
      · rw [if_neg ho]
        exact ⟨rfl, fun _ => rfl, fun _ => rfl⟩
    · rw [if_neg hf]
      exact ⟨rfl, fun _ => rfl, fun _ => rfl⟩

/-- Closed instance of the C9 theorem: an unopenable file and a malformed
file both exit 0 without running the parser; a good file exits 1. -/
theorem main_exit_codes_witness :
    (mainRun ⟨["prog", "a.xml"], false, true, true⟩).parserRan = false
    ∧ (mainRun ⟨["prog", "a.xml"], true, false, true⟩).parserRan = false
    ∧ (mainRun ⟨["prog", "a.xml"], true, true, false⟩).exitCode
        = (if (mainRun ⟨["prog", "a.xml"], true, true, false⟩).parserRan then 1 else 0) :=
  ⟨(main_exit_codes ⟨["prog", "a.xml"], false, true, true⟩).2.1 rfl,
   (main_exit_codes ⟨["prog", "a.xml"], true, false, true⟩).2.2 rfl,
   (main_exit_codes ⟨["prog", "a.xml"], true, true, false⟩).1⟩

/-! ## Claim theorems about the enumeration resolver -/

/-- The sequence of running enumerator values produced by the resolver,
written as a standalone recursion on the value list for comparison with
the embedded loop: an empty entry increments the value, a numeric entry
resets it and clears the symbolic base, and a non-numeric entry becomes
the symbolic base with the value restarting at 0. -/
def enumValueTrace (v : Int) (base : String) : List String → List Int
  | [] => []
  | s0 :: rest =>
    let s := qtrim s0
    if s == "" then (v + 1) :: enumValueTrace (v + 1) base rest
    else
      match enumParse s with
      | some n => toInt32 n :: enumValueTrace (toInt32 n) "" rest
      | none => 0 :: enumValueTrace 0 s rest

theorem if_gt_eq_max (m x : Int) : (if x > m then x else m) = max m x := by
  by_cases h : m < x
  · rw [if_pos h, max_eq_right h.le]
  · rw [if_neg h, max_eq_left (le_of_not_lt h)]

theorem le_foldl_max (l : List Int) : ∀ (m : Int), m ≤ l.foldl max m := by
  induction l with
  | nil => intro m; exact le_refl m
  | cons x r ih => intro m; exact le_trans (le_max_left m x) (ih (max m x))

theorem enumStep_empty (st : EnumSt) (s : String) (hs : qtrim s = "") :
    enumStep st s =
      { maxValue := if st.value + 1 > st.maxValue then st.value + 1 else st.maxValue,
        value := st.value + 1, baseString := st.baseString,
        numberList := st.numberList ++
          [if st.baseString == "" then toString (st.value + 1)
           else st.baseString ++ " + " ++ toString (st.value + 1)] } := by
  unfold enumStep
  dsimp only
  rw [if_pos (beq_iff_eq.mpr hs)]

theorem enumStep_parsed (st : EnumSt) (s : String) (n : Nat)
    (hs : ¬ qtrim s = "") (hp : enumParse (qtrim s) = some n) :
    enumStep st s =
      { maxValue := if toInt32 n > st.maxValue then toInt32 n else st.maxValue,
        value := toInt32 n, baseString := "",
        numberList := st.numberList ++ [toString (toInt32 n)] } := by
  unfold enumStep
  dsimp only
  rw [if_neg (show ¬ (qtrim s == "") = true by rw [beq_iff_eq]; exact hs), hp]

theorem enumStep_symbolic (st : EnumSt) (s : String)
    (hs : ¬ qtrim s = "") (hp : enumParse (qtrim s) = none) :
    enumStep st s =
      { maxValue := if 0 > st.maxValue then 0 else st.maxValue,
        value := 0, baseString := qtrim s,
        numberList := st.numberList ++ [qtrim s] } := by
  unfold enumStep
  dsimp only
  rw [if_neg (show ¬ (qtrim s == "") = true by rw [beq_iff_eq]; exact hs), hp]

theorem enumValueTrace_empty (v : Int) (base : String) (s0 : String) (rest : List String)
    (hs : qtrim s0 = "") :
    enumValueTrace v base (s0 :: rest) = (v + 1) :: enumValueTrace (v + 1) base rest := by
  rw [enumValueTrace]
  rw [if_pos (beq_iff_eq.mpr hs)]

theorem enumValueTrace_parsed (v : Int) (base : String) (s0 : String) (rest : List String)
    (n : Nat) (hs : ¬ qtrim s0 = "") (hp : enumParse (qtrim s0) = some n) :
    enumValueTrace v base (s0 :: rest) = toInt32 n :: enumValueTrace (toInt32 n) "" rest := by
  rw [enumValueTrace]
  rw [if_neg (show ¬ (qtrim s0 == "") = true by rw [beq_iff_eq]; exact hs), hp]

theorem enumValueTrace_symbolic (v : Int) (base : String) (s0 : String) (rest : List String)
    (hs : ¬ qtrim s0 = "") (hp : enumParse (qtrim s0) = none) :
    enumValueTrace v base (s0 :: rest) = 0 :: enumValueTrace 0 (qtrim s0) rest := by
  rw [enumValueTrace]
  rw [if_neg (show ¬ (qtrim s0 == "") = true by rw [beq_iff_eq]; exact hs), hp]

theorem enum_fold_max (vs : List String) :
    ∀ (st : EnumSt), (vs.foldl enumStep st).maxValue
      = (enumValueTrace st.value st.baseString vs).foldl max st.maxValue := by
  induction vs with
  | nil => intro st; rfl
  | cons s0 rest ih =>
    intro st
    rw [List.foldl_cons, ih (enumStep st s0)]
    by_cases hs : qtrim s0 = ""
    · rw [enumStep_empty st s0 hs, enumValueTrace_empty st.value st.baseString s0 rest hs]
      dsimp only
      rw [List.foldl_cons, if_gt_eq_max]
    · cases hp : enumParse (qtrim s0) with
      | some n =>
        rw [enumStep_parsed st s0 n hs hp,
          enumValueTrace_parsed st.value st.baseString s0 rest n hs hp]
        dsimp only
        rw [List.foldl_cons, if_gt_eq_max]
      | none =>
        rw [enumStep_symbolic st s0 hs hp,
          enumValueTrace_symbolic st.value st.baseString s0 rest hs hp]
        dsimp only
        rw [List.foldl_cons, if_gt_eq_max]

/-- C6 counterexample: for the single enum value 3 the computed minimum
bit width is 2, not max(8, ceil(log2(3+1))) = 8 as the claim states; and
for a single unresolvable symbolic value the computed width is 1, not 8,
because maxValue is initialised to 1 and the 8 fallback is unreachable. -/
theorem minbitwidth_small_value :
    (computeNumberList ["3"]).minbitwidth = 2
    ∧ (computeNumberList ["3"]).minbitwidth ≠ max 8 (Nat.clog 2 (3 + 1))
    ∧ (computeNumberList ["FOO"]).minbitwidth = 1 := by
  have h3 : List.foldl enumStep ⟨1, -1, "", []⟩ ["3"] = ⟨3, 3, "", ["3"]⟩ := by decide
  have hF : List.foldl enumStep ⟨1, -1, "", []⟩ ["FOO"] = ⟨1, 0, "FOO", ["FOO"]⟩ := by decide
  have hc4 : Nat.clog 2 4 = 2 := by
    rw [show (4 : Nat) = 2 ^ 2 by norm_num, Nat.clog_pow 2 2 (by norm_num)]
  have hc2 : Nat.clog 2 2 = 1 := Nat.clog_eq_one (by norm_num) (by norm_num)
  have e3 : (computeNumberList ["3"]).minbitwidth = 2 := by
    rw [computeNumberList]
    dsimp only
    rw [h3]
    rw [if_pos (by decide : (0 : Int) < (3 : Int))]
    rw [show ((3 : Int).toNat + 1) = 4 by decide]
    exact hc4
  have eF : (computeNumberList ["FOO"]).minbitwidth = 1 := by
    rw [computeNumberList]
    dsimp only
    rw [hF]
    rw [if_pos (by decide : (0 : Int) < (1 : Int))]
    rw [show ((1 : Int).toNat + 1) = 2 by decide]
    exact hc2
  refine ⟨e3, ?_, eF⟩
  rw [e3, hc4]
  decide

/-- C6 amended: after computeNumberList, min bit width equals
ceil(log2(M + 1)) where M is the maximum of the initial value 1 and every
intermediate enumerator value of the resolver walk; no lower bound of 8 is
applied, and since M is at least 1 the branch that would yield 8 when no
numeric value is known is unreachable. -/
theorem minbitwidth_formula (vs : List String) :
    (computeNumberList vs).minbitwidth
      = Nat.clog 2 (((enumValueTrace (-1) "" vs).foldl max 1).toNat + 1)
    ∧ 1 ≤ (enumValueTrace (-1) "" vs).foldl max 1 := by
  have hmax : (vs.foldl enumStep ⟨1, -1, "", []⟩).maxValue
      = (enumValueTrace (-1) "" vs).foldl max 1 := enum_fold_max vs ⟨1, -1, "", []⟩
  have hge : (1 : Int) ≤ (enumValueTrace (-1) "" vs).foldl max 1 :=
    le_foldl_max _ 1
  constructor
  · rw [computeNumberList]
    dsimp only
    rw [if_pos (by rw [hmax]; omega), hmax]
  · exact hge

/-- C7: the resolver walks the value list left to right with a running
counter: an empty raw value increments the counter and yields it as a
decimal string, or base plus offset when a symbolic base is active; a raw
value that parses numerically (decimal, or hex after 0x, or binary after
0b, as enumParse dispatches) resets the counter to that number and clears
the base; a raw value that fails to parse becomes the new symbolic base
with the counter restarting at 0.  In particular the values
A, B=SOMEWHERE, C resolve to 0, SOMEWHERE, SOMEWHERE + 1. -/
theorem enum_resolver_steps :
    (∀ (st : EnumSt) (s : String), qtrim s = "" →
      enumStep st s =
        { maxValue := if st.value + 1 > st.maxValue then st.value + 1 else st.maxValue,
          value := st.value + 1, baseString := st.baseString,
          numberList := st.numberList ++
            [if st.baseString == "" then toString (st.value + 1)
             else st.baseString ++ " + " ++ toString (st.value + 1)] })
    ∧ (∀ (st : EnumSt) (s : String) (n : Nat), ¬ qtrim s = "" → enumParse (qtrim s) = some n →
      enumStep st s =
        { maxValue := if toInt32 n > st.maxValue then toInt32 n else st.maxValue,
          value := toInt32 n, baseString := "",
          numberList := st.numberList ++ [toString (toInt32 n)] })
    ∧ (∀ (st : EnumSt) (s : String), ¬ qtrim s = "" → enumParse (qtrim s) = none →
      enumStep st s =
        { maxValue := if 0 > st.maxValue then 0 else st.maxValue,
          value := 0, baseString := qtrim s,
          numberList := st.numberList ++ [qtrim s] })
    ∧ (computeNumberList ["", "SOMEWHERE", ""]).numberList
        = ["0", "SOMEWHERE", "SOMEWHERE + 1"] := by
  exact ⟨enumStep_empty, fun st s n hs hp => enumStep_parsed st s n hs hp,
    fun st s hs hp => enumStep_symbolic st s hs hp, by decide⟩

/-- Closed instance of the C7 theorem: one step of each kind and the seed
example. -/
theorem enum_resolver_steps_witness :
    enumStep ⟨1, -1, "", []⟩ "" = ⟨1, 0, "", ["0"]⟩
    ∧ enumStep ⟨1, 0, "", ["0"]⟩ "SOMEWHERE" = ⟨1, 0, "SOMEWHERE", ["0", "SOMEWHERE"]⟩
    ∧ enumStep ⟨1, -1, "", []⟩ "0x10" = ⟨16, 16, "", ["16"]⟩
    ∧ enumStep ⟨1, -1, "", []⟩ "0b101" = ⟨5, 5, "", ["5"]⟩
    ∧ enumStep ⟨1, -1, "", []⟩ "9" = ⟨9, 9, "", ["9"]⟩
    ∧ (computeNumberList ["", "SOMEWHERE", ""]).numberList
        = ["0", "SOMEWHERE", "SOMEWHERE + 1"] := by
  refine ⟨?_, ?_, ?_, ?_, ?_, enum_resolver_steps.2.2.2⟩
  · rw [enum_resolver_steps.1 ⟨1, -1, "", []⟩ "" rfl]
    decide
  · rw [enum_resolver_steps.2.2.1 ⟨1, 0, "", ["0"]⟩ "SOMEWHERE" (by decide) (by decide)]
    decide
  · rw [enum_resolver_steps.2.1 ⟨1, -1, "", []⟩ "0x10" 16 (by decide) (by decide)]
    decide
  · rw [enum_resolver_steps.2.1 ⟨1, -1, "", []⟩ "0b101" 5 (by decide) (by decide)]
    decide
  · rw [enum_resolver_steps.2.1 ⟨1, -1, "", []⟩ "9" 9 (by decide) (by decide)]
    decide

/-- A bitfield demo field. -/
def bfDemo (nm : String) (b : Nat) : Enc := { mkField nm with bits := b }

/-- Closed instance of the C4 theorem on the three-bitfield seed. -/
theorem bitfield_runs_terminated_witness :
    runsOKb (parseChildren "s" [bfDemo "a" 3, bfDemo "b" 5, bfDemo "c" 8]).acc = true :=
  bitfield_runs_terminated "s" [bfDemo "a" 3, bfDemo "b" 5, bfDemo "c" 8]

/-- Closed instance of the C5 theorem on a concrete structure. -/
theorem defaults_contiguous_suffix_witness :
    suffixOKb (parseChildren "s"
      [{ mkField "a" with hasDefault := true }, mkField "b"]).acc = true :=
  (defaults_contiguous_suffix "s"
    [{ mkField "a" with hasDefault := true }, mkField "b"]).1

/-- Closed instance of the amended C6 formula at a concrete value list. -/
theorem minbitwidth_formula_witness :
    (computeNumberList ["3"]).minbitwidth
      = Nat.clog 2 (((enumValueTrace (-1) "" ["3"]).foldl max 1).toNat + 1) :=
  (minbitwidth_formula ["3"]).1

end ProtoGen
